import Mathlib

/-!
Verification of the `tensorflow_viewer` data layer.

Shallow embedding of the record-file loaders
(`tensorflow_viewer/data/event_loader.py`, `events_loader.py`,
`tfrecords_loader.py`), the ingestion index (`loader.py`,
`DataLoader._add_entry` and the index accessors), the scalar
accumulator (`scalar_data.py`) and the image decode future
(`image_data.py`).

Conventions:
* Python dicts are modelled as insertion-ordered association lists
  (new keys are appended at the end, as CPython dicts preserve
  insertion order).
* `bisect.insort_right` / `bisect.bisect_left` are binary searches;
  on the sorted lists the code applies them to they coincide with the
  structural (linear) insertions modelled here.
* Machine-level details (protobuf wire decoding, Qt signals, the
  actual bytes of records) are abstracted: a record is identified by
  its size in bytes (for offset arithmetic) and its index in the file.
-/

namespace TFView

/-! ## Association-list model of Python `dict` -/

/-- `d.get(k)` on an insertion-ordered dict. -/
def lookupA {α β : Type} [DecidableEq α] (k : α) : List (α × β) → Option β
  | [] => none
  | (a, b) :: rest => if a = k then some b else lookupA k rest

/-- `d[k] = v` on an insertion-ordered dict: overwrite in place if the
key exists, otherwise append at the end. -/
def setA {α β : Type} [DecidableEq α] (l : List (α × β)) (k : α) (v : β) : List (α × β) :=
  match l with
  | [] => [(k, v)]
  | (a, b) :: rest => if a = k then (k, v) :: rest else (a, b) :: setA rest k v

theorem lookupA_setA_self {α β : Type} [DecidableEq α] (l : List (α × β)) (k : α) (v : β) :
    lookupA k (setA l k v) = some v := by
  induction l with
  | nil => simp [setA, lookupA]
  | cons hd tl ih =>
    obtain ⟨a, b⟩ := hd
    by_cases hak : a = k <;> simp [setA, lookupA, hak, ih]

theorem lookupA_setA_ne {α β : Type} [DecidableEq α] (l : List (α × β)) (k k' : α) (v : β)
    (hne : k' ≠ k) : lookupA k' (setA l k v) = lookupA k' l := by
  induction l with
  | nil => simp [setA, lookupA, Ne.symm hne]
  | cons hd tl ih =>
    obtain ⟨a, b⟩ := hd
    by_cases hak : a = k
    · subst hak
      simp [setA, lookupA, Ne.symm hne]
    · by_cases hak' : a = k' <;> simp [setA, lookupA, hak, hak', hne, ih]

theorem lookupA_append_right {α β : Type} [DecidableEq α] (l : List (α × β)) (k : α) (v : β)
    (h : lookupA k l = none) : lookupA k (l ++ [(k, v)]) = some v := by
  induction l with
  | nil => simp [lookupA]
  | cons hd tl ih =>
    obtain ⟨a, b⟩ := hd
    by_cases hak : a = k
    · simp [lookupA, hak] at h
    · simp [lookupA, hak] at h ⊢
      exact ih h

theorem lookupA_append_ne {α β : Type} [DecidableEq α] (l : List (α × β)) (k k' : α) (v : β)
    (hne : k' ≠ k) : lookupA k' (l ++ [(k, v)]) = lookupA k' l := by
  induction l with
  | nil => simp [lookupA, Ne.symm hne]
  | cons hd tl ih =>
    obtain ⟨a, b⟩ := hd
    by_cases hak' : a = k' <;> simp [lookupA, hak', ih]

/-! ## Record files and offsets

A record file (TFRecord framing) is a sequence of complete records —
each occupying a positive number of bytes — possibly followed by the
`tail` bytes of a record still being written.  `endOffset recs k` is
the byte offset just after the first `k` records, i.e. the offset the
native reader reports after reading record `k - 1`. -/

/-- View of the file on disk at the moment of one poll. -/
structure FileView where
  present : Bool        -- `os.path.exists(path)`
  recs : List Nat       -- byte sizes of the complete records
  tail : Nat            -- trailing bytes of an incomplete record
  deriving Repr, DecidableEq

/-- `os.stat(path).st_size`. -/
def FileView.size (fv : FileView) : Nat := fv.recs.sum + fv.tail

/-- Byte offset after the first `k` records. -/
def endOffset (recs : List Nat) (k : Nat) : Nat := ((recs.take k).sum)

theorem endOffset_zero (recs : List Nat) : endOffset recs 0 = 0 := rfl

theorem endOffset_succ (r : Nat) (recs : List Nat) (k : Nat) :
    endOffset (r :: recs) (k + 1) = r + endOffset recs k := by
  simp [endOffset, List.take_succ_cons]

theorem sum_take_le_sum (l : List Nat) (n : Nat) : (l.take n).sum ≤ l.sum := by
  induction l generalizing n with
  | nil => simp
  | cons r t ih =>
    cases n with
    | zero => simp
    | succ m =>
      simp only [List.take_succ_cons, List.sum_cons]
      have := ih m
      omega

theorem endOffset_mono (recs : List Nat) (j k : Nat) (h : j ≤ k) :
    endOffset recs j ≤ endOffset recs k := by
  unfold endOffset
  rw [show recs.take j = (recs.take k).take j by
    rw [List.take_take, Nat.min_eq_left h]]
  exact sum_take_le_sum _ _

theorem endOffset_le_size (fv : FileView) (k : Nat) : endOffset fv.recs k ≤ fv.size := by
  unfold endOffset FileView.size
  have h1 := sum_take_le_sum fv.recs k
  omega

/-- The index `k` of the record boundary sitting at byte offset `o`,
when `o` is a boundary (`endOffset recs k = o`); `none` otherwise.
Models where the native `PyRecordReader` positioned at `start_offset`
begins reading. -/
def boundaryIdx : List Nat → Nat → Option Nat
  | _, 0 => some 0
  | [], _ + 1 => none
  | r :: rest, o + 1 =>
    if r ≤ o + 1 then (boundaryIdx rest (o + 1 - r)).map (· + 1) else none

theorem boundaryIdx_endOffset (recs : List Nat) (k : Nat)
    (hk : k ≤ recs.length) (hpos : ∀ r ∈ recs, 0 < r) :
    boundaryIdx recs (endOffset recs k) = some k := by
  induction recs generalizing k with
  | nil =>
    have hk0 : k = 0 := by simpa using hk
    subst hk0
    rfl
  | cons r rest ih =>
    match k with
    | 0 => rfl
    | k + 1 =>
      have hr : 0 < r := hpos r (by simp)
      rw [endOffset_succ r rest k]
      obtain ⟨m, hm⟩ : ∃ m, r + endOffset rest k = m + 1 := ⟨r + endOffset rest k - 1, by omega⟩
      rw [hm]
      have hle : r ≤ m + 1 := by omega
      have hsub : m + 1 - r = endOffset rest k := by omega
      simp only [boundaryIdx]
      rw [if_pos hle, hsub, ih k (by simpa using hk) (fun x hx => hpos x (by simp [hx]))]
      rfl

/-! ## `EventLoader.load` (event_loader.py lines 55–94)

One poll of a single-file loader.  The state of the loader between
polls is the committed offset `LoaderFile._last_offset`.  Per-record
processing (building entries and handing them to the sink) does not
influence control flow, offsets or the returned flag, so the model
records which record indices were fully decoded (`trace`) together
with the offset committed after each (`set_offset(reader.offset())`).

Environment of one poll:
* `intr i` — whether `target.is_interruption_requested()` returns true
  at the check performed right after the reader fetched record `i`;
* `dataLoss` — `some i` if the native reader raises `DataLossError`
  when fetching record `i` (e.g. a half-written record), else `none`.
  A `DataLossError` on the incomplete tail behaves like the `none`
  case ending at `recs.length`, which the model folds into the normal
  stop. -/

structure PollResult where
  offset : Nat                 -- `LoaderFile._last_offset` after the poll
  trace : List (Nat × Nat)     -- (record index, offset committed after it)
  flag : Bool                  -- return value of `load`
  deriving Repr, DecidableEq

/-- The `for _ in reader:` loop of `EventLoader.load`, starting at
record index `i` with committed offset `off = endOffset recs i`;
`rest` is the records from index `i` on. -/
def loadLoop (rest : List Nat) (i : Nat) (off : Nat)
    (intr : Nat → Bool) (dataLoss : Option Nat) : PollResult :=
  match rest with
  | [] => ⟨off, [], true⟩              -- StopIteration: loop ends, return True
  | r :: rest' =>
    if dataLoss = some i then
      ⟨off, [], true⟩                  -- DataLossError caught: abort poll, return True
    else if intr i then
      ⟨off, [], false⟩                 -- interruption: return False before committing
    else
      let res := loadLoop rest' (i + 1) (off + r) intr dataLoss
      ⟨res.offset, (i, off + r) :: res.trace, res.flag⟩

/-- `EventLoader.load(target)`: validity check, change check, then the
record loop.  `committed` is `LoaderFile._last_offset` on entry. -/
def eventLoad (fv : FileView) (committed : Nat)
    (intr : Nat → Bool) (dataLoss : Option Nat) : PollResult :=
  if ¬ (fv.present ∧ committed ≤ fv.size) then
    ⟨committed, [], false⟩             -- `not self._file.is_valid()`
  else if committed = fv.size then
    ⟨committed, [], true⟩              -- `not self._file.changed()`
  else
    match boundaryIdx fv.recs committed with
    | none => ⟨committed, [], true⟩    -- reader desyncs: DataLossError, caught
    | some k => loadLoop (fv.recs.drop k) k committed intr dataLoss

/-- `LoaderFile.get_reader(start_offset=None)` opens the reader at
`start_offset` if given, else at the committed offset. -/
def getReaderStart (committed : Nat) (startOffset : Option Nat) : Nat :=
  startOffset.getD committed

theorem endOffset_add (recs : List Nat) (k m : Nat) :
    endOffset recs (k + m) = endOffset recs k + ((recs.drop k).take m).sum := by
  unfold endOffset
  rw [List.take_add, List.sum_append]

theorem endOffset_lt_succ (recs : List Nat) (k : Nat) (hk : k < recs.length)
    (hpos : ∀ r ∈ recs, 0 < r) : endOffset recs k < endOffset recs (k + 1) := by
  rw [endOffset_add recs k 1]
  have hne : recs.drop k ≠ [] := by
    intro h
    have := List.drop_eq_nil_iff.mp h
    omega
  obtain ⟨r, rest, hr⟩ := List.exists_cons_of_ne_nil hne
  have hmem : r ∈ recs := by
    have : r ∈ recs.drop k := by rw [hr]; simp
    exact List.mem_of_mem_drop this
  have := hpos r hmem
  rw [hr]
  simp [List.take_succ_cons]
  omega

theorem loadLoop_offset_ge (rest : List Nat) (i off : Nat) (intr : Nat → Bool)
    (dl : Option Nat) : off ≤ (loadLoop rest i off intr dl).offset := by
  induction rest generalizing i off with
  | nil => exact Nat.le_refl _
  | cons r rest' ih =>
    by_cases h1 : dl = some i
    · simp [loadLoop, h1]
    · by_cases h2 : intr i
      · simp [loadLoop, h1, h2]
      · have := ih (i + 1) (off + r)
        simp only [loadLoop, if_neg h1, if_neg h2]
        omega

theorem eventLoad_offset_ge (fv : FileView) (c : Nat) (intr : Nat → Bool)
    (dl : Option Nat) : c ≤ (eventLoad fv c intr dl).offset := by
  by_cases h1 : fv.present = true ∧ c ≤ fv.size
  · by_cases h2 : c = fv.size
    · simp [eventLoad, h1, h2]
    · cases hb : boundaryIdx fv.recs c with
      | none => simp [eventLoad, h1, h2, hb]
      | some k =>
        simp only [eventLoad, h1, not_true_eq_false, if_false, if_neg h2, hb]
        exact loadLoop_offset_ge _ _ _ _ _
  · simp [eventLoad, h1]

/-- Every entry of the poll trace records a record index at or after the
start index and the offset just past that record; with positive record
sizes the committed offset strictly exceeds the starting offset. -/
theorem loadLoop_trace_spec (rest : List Nat) (i off : Nat) (intr : Nat → Bool)
    (dl : Option Nat) :
    ∀ p ∈ (loadLoop rest i off intr dl).trace,
      i ≤ p.1 ∧ p.2 = off + (rest.take (p.1 - i + 1)).sum ∧
        ((∀ r ∈ rest, 0 < r) → off < p.2) := by
  induction rest generalizing i off with
  | nil => simp [loadLoop]
  | cons r rest' ih =>
    by_cases h1 : dl = some i
    · simp [loadLoop, h1]
    · by_cases h2 : intr i
      · simp [loadLoop, h1, h2]
      · intro p hp
        simp only [loadLoop, if_neg h1, if_neg h2] at hp
        rcases List.mem_cons.mp hp with rfl | hp'
        · refine ⟨Nat.le_refl _, ?_, ?_⟩
          · simp [List.take_succ_cons]
          · intro hpos
            have := hpos r (by simp)
            simp
            omega
        · obtain ⟨h4, h5, h6⟩ := ih (i + 1) (off + r) p hp'
          refine ⟨by omega, ?_, ?_⟩
          · have hm : p.1 - i + 1 = (p.1 - (i + 1) + 1) + 1 := by omega
            rw [hm, List.take_succ_cons, List.sum_cons]
            omega
          · intro hpos
            have hr : 0 < r := hpos r (by simp)
            have := h6 (fun x hx => hpos x (by simp [hx]))
            omega

/-- With a `DataLossError` raised when fetching record `d` and no
interruption request, the loop decodes exactly records `i..d-1`,
commits up to the start of record `d`, and returns `true`. -/
theorem loadLoop_dataLoss (rest : List Nat) (i off d : Nat) (intr : Nat → Bool)
    (hintr : ∀ j, intr j = false) (hd : i ≤ d) (hlen : d < i + rest.length) :
    (loadLoop rest i off intr (some d)).offset = off + (rest.take (d - i)).sum ∧
    (loadLoop rest i off intr (some d)).flag = true ∧
    ∀ p ∈ (loadLoop rest i off intr (some d)).trace, p.1 < d := by
  induction rest generalizing i off with
  | nil => simp at hlen; omega
  | cons r rest' ih =>
    by_cases hdi : d = i
    · subst hdi
      simp [loadLoop]
    · have h1 : (some d : Option Nat) ≠ some i := by simp [hdi]
      have h2 : ¬ (intr i = true) := by simp [hintr i]
      have hne : (some d : Option Nat) ≠ some i := by simpa using hdi
      simp only [loadLoop, if_neg hne, if_neg h2]
      obtain ⟨ho, hf, ht⟩ := ih (i + 1) (off + r) (by omega) (by simp at hlen ⊢; omega)
      refine ⟨?_, hf, ?_⟩
      · have hm : d - i = (d - (i + 1)) + 1 := by omega
        rw [ho, hm, List.take_succ_cons, List.sum_cons]
        omega
      · intro p hp
        rcases List.mem_cons.mp hp with rfl | hp'
        · omega
        · exact ht p hp'

/-- With no failure and no interruption, the first record fetched by
the loop is record `i`, committed at offset `off + r`. -/
theorem loadLoop_head (r : Nat) (rest' : List Nat) (i off : Nat) (intr : Nat → Bool)
    (hintr : intr i = false) :
    (loadLoop (r :: rest') i off intr none).trace.head? = some (i, off + r) := by
  simp [loadLoop, hintr]

/-- Mirrors the loop's interruption exit: `true` exactly when the
`return False` at the interruption check is taken. -/
def loopInterrupted (rest : List Nat) (i : Nat) (intr : Nat → Bool)
    (dl : Option Nat) : Bool :=
  match rest with
  | [] => false
  | _ :: rest' =>
    if dl = some i then false
    else if intr i then true
    else loopInterrupted rest' (i + 1) intr dl

theorem loadLoop_flag_eq (rest : List Nat) (i off : Nat) (intr : Nat → Bool)
    (dl : Option Nat) :
    (loadLoop rest i off intr dl).flag = !loopInterrupted rest i intr dl := by
  induction rest generalizing i off with
  | nil => simp [loadLoop, loopInterrupted]
  | cons r rest' ih =>
    by_cases h1 : dl = some i
    · simp [loadLoop, loopInterrupted, h1]
    · by_cases h2 : intr i
      · simp [loadLoop, loopInterrupted, h1, h2]
      · simp only [loadLoop, loopInterrupted, if_neg h1, if_neg h2]
        exact ih (i + 1) (off + r)

/-! ## `EventsLoader.load` (events_loader.py lines 35–57)

The composite (directory) source.  Its children are single-file
loaders; the composite polls each child in order and checks the
interruption flag after each one.  A child whose own poll returned
`False` is removed from the child list and reported to
`target.delete_loader` — child results never flow into the composite's
own return value.  New-file discovery only extends the child list and
does not influence the flag either. -/

structure ChildSpec where
  fv : FileView
  committed : Nat
  intr : Nat → Bool
  dataLoss : Option Nat

/-- The `for sub_loader in self._sub_loaders:` loop: `cintr j` is the
interruption flag checked after loading child `j`. -/
def eventsLoadLoop (children : List ChildSpec) (j : Nat) (cintr : Nat → Bool) : Bool :=
  match children with
  | [] => true
  | c :: rest =>
    let _childResult := eventLoad c.fv c.committed c.intr c.dataLoss
    if cintr j then false else eventsLoadLoop rest (j + 1) cintr

/-- `EventsLoader.load(target)`: directory existence check, then the
child loop. -/
def eventsLoad (dirPresent : Bool) (children : List ChildSpec)
    (cintr : Nat → Bool) : Bool :=
  if ¬ dirPresent then false
  else eventsLoadLoop children 0 cintr

theorem eventsLoadLoop_false_iff (children : List ChildSpec) (j : Nat)
    (cintr : Nat → Bool) :
    eventsLoadLoop children j cintr = false ↔
      ∃ m < children.length, cintr (j + m) = true := by
  induction children generalizing j with
  | nil => simp [eventsLoadLoop]
  | cons c rest ih =>
    by_cases h : cintr j
    · constructor
      · intro _
        exact ⟨0, by simp, by simpa using h⟩
      · intro _
        simp [eventsLoadLoop, h]
    · simp only [eventsLoadLoop, if_neg h]
      rw [ih (j + 1)]
      constructor
      · rintro ⟨m, hm, hc⟩
        exact ⟨m + 1, by simp; omega, by rw [show j + (m + 1) = j + 1 + m by omega]; exact hc⟩
      · rintro ⟨m, hm, hc⟩
        match m with
        | 0 => simp at hc; exact absurd hc (by simpa using h)
        | m + 1 =>
          exact ⟨m, by simp at hm; omega, by rw [show j + 1 + m = j + (m + 1) by omega]; exact hc⟩

/-- An environment with no interruption requests. -/
def noIntr : Nat → Bool := fun _ => false

/-- Committed offsets along a sequence of polls of the same loader:
each poll starts from the offset the previous one committed. -/
def pollSeq (c : Nat) : List (FileView × (Nat → Bool) × Option Nat) → List Nat
  | [] => []
  | (fv, intr, dl) :: rest =>
    (eventLoad fv c intr dl).offset :: pollSeq (eventLoad fv c intr dl).offset rest

theorem pollSeq_chain (c : Nat) (polls : List (FileView × (Nat → Bool) × Option Nat)) :
    List.Chain (· ≤ ·) c (pollSeq c polls) := by
  induction polls generalizing c with
  | nil => exact List.Chain.nil
  | cons p rest ih =>
    obtain ⟨fv, intr, dl⟩ := p
    exact List.Chain.cons (eventLoad_offset_ge fv c intr dl) (ih _)

/-- On a valid, changed file whose committed offset sits at record
boundary `k`, `load` runs the record loop from index `k`. -/
theorem eventLoad_eq_loop (fv : FileView) (c : Nat) (intr : Nat → Bool)
    (dl : Option Nat) (h1 : fv.present = true ∧ c ≤ fv.size) (h2 : c ≠ fv.size)
    (k : Nat) (hb : boundaryIdx fv.recs c = some k) :
    eventLoad fv c intr dl = loadLoop (fv.recs.drop k) k c intr dl := by
  unfold eventLoad
  rw [if_neg (not_not_intro h1), if_neg h2, hb]

/-- C1: for every poll of a single-file loader starting at a committed
record boundary, (a) the offset committed after each fully decoded
record is exactly the reader's end offset of that record, (b) the
committed offset never decreases — within the poll and across any
sequence of subsequent polls, (c) a reader opened without an explicit
start offset starts exactly at the committed offset, and (d) every
record decoded by the poll ends strictly after the pre-poll committed
offset, so no record ending at or before a committed offset is ever
decoded again. -/
theorem eventLoader_commit_invariants (fv : FileView) (k : Nat) (intr : Nat → Bool)
    (dl : Option Nat) (hk : k ≤ fv.recs.length) (hpos : ∀ r ∈ fv.recs, 0 < r) :
    (∀ p ∈ (eventLoad fv (endOffset fv.recs k) intr dl).trace,
       p.2 = endOffset fv.recs (p.1 + 1)) ∧
    endOffset fv.recs k ≤ (eventLoad fv (endOffset fv.recs k) intr dl).offset ∧
    (∀ polls : List (FileView × (Nat → Bool) × Option Nat),
       List.Chain (· ≤ ·) (endOffset fv.recs k) (pollSeq (endOffset fv.recs k) polls)) ∧
    getReaderStart (eventLoad fv (endOffset fv.recs k) intr dl).offset none =
      (eventLoad fv (endOffset fv.recs k) intr dl).offset ∧
    (∀ p ∈ (eventLoad fv (endOffset fv.recs k) intr dl).trace,
       endOffset fv.recs k < endOffset fv.recs (p.1 + 1)) := by
  have htrace : ∀ p ∈ (eventLoad fv (endOffset fv.recs k) intr dl).trace,
      k ≤ p.1 ∧ p.2 = endOffset fv.recs (p.1 + 1) ∧ endOffset fv.recs k < p.2 := by
    intro p hp
    by_cases h1 : fv.present = true ∧ endOffset fv.recs k ≤ fv.size
    · by_cases h2 : endOffset fv.recs k = fv.size
      · simp [eventLoad, h1, h2] at hp
      · rw [eventLoad_eq_loop fv (endOffset fv.recs k) intr dl h1 h2 k
            (boundaryIdx_endOffset fv.recs k hk hpos)] at hp
        obtain ⟨ha, hb, hc⟩ := loadLoop_trace_spec (fv.recs.drop k) k
          (endOffset fv.recs k) intr dl p hp
        refine ⟨ha, ?_, hc (fun r hr => hpos r (List.mem_of_mem_drop hr))⟩
        rw [hb, ← endOffset_add fv.recs k (p.1 - k + 1)]
        congr 1
        omega
    · simp [eventLoad, h1] at hp
  refine ⟨fun p hp => (htrace p hp).2.1, eventLoad_offset_ge _ _ _ _,
    fun polls => pollSeq_chain _ polls, rfl, fun p hp => ?_⟩
  obtain ⟨_, hb, hc⟩ := htrace p hp
  rw [← hb]
  exact hc

/-- C1 witness: a two-record file polled from the first boundary only
moves the committed offset forward. -/
theorem eventLoader_commit_invariants_witness :
    endOffset [16, 20] 1 ≤
      (eventLoad ⟨true, [16, 20], 0⟩ (endOffset [16, 20] 1) noIntr none).offset :=
  (eventLoader_commit_invariants ⟨true, [16, 20], 0⟩ 1 noIntr none
    (by decide) (by decide)).2.1

/-- C2 counterexample: a present, untruncated, fully readable file on
which `load` nevertheless returns `False`, because an interruption was
requested during the poll — so `False` is not returned exactly when
the source is permanently unusable. -/
theorem eventLoader_false_not_only_when_unusable :
    (eventLoad ⟨true, [16], 0⟩ 0 (fun _ => true) none).flag = false ∧
    (⟨true, [16], 0⟩ : FileView).present = true ∧
    0 ≤ (⟨true, [16], 0⟩ : FileView).size := by
  exact ⟨rfl, rfl, Nat.zero_le _⟩

/-- C2 (amended): a single-file loader's `load` returns `False` exactly
when the file is permanently unusable (deleted, or truncated below the
committed offset) or the poll was cut short by an interruption request;
the composite loader's `load` returns `False` exactly when its
directory is gone or an interruption was requested after loading one
of its children.  With no interruption requested, this is the original
claim. -/
theorem loader_false_iff_unusable_or_interrupted (fv : FileView) (c : Nat)
    (intr : Nat → Bool) (dl : Option Nat) (dirPresent : Bool)
    (children : List ChildSpec) (cintr : Nat → Bool) :
    ((eventLoad fv c intr dl).flag = false ↔
      (¬ (fv.present = true ∧ c ≤ fv.size)) ∨
      (∃ k, boundaryIdx fv.recs c = some k ∧ c ≠ fv.size ∧
        loopInterrupted (fv.recs.drop k) k intr dl = true)) ∧
    (eventsLoad dirPresent children cintr = false ↔
      dirPresent = false ∨ ∃ m < children.length, cintr m = true) := by
  constructor
  · by_cases h1 : fv.present = true ∧ c ≤ fv.size
    · by_cases h2 : c = fv.size
      · simp [eventLoad, h1, h2]
      · cases hb : boundaryIdx fv.recs c with
        | none => simp [eventLoad, h1, h2, hb]
        | some k =>
          rw [eventLoad_eq_loop fv c intr dl h1 h2 k hb, loadLoop_flag_eq,
            Bool.not_eq_false']
          constructor
          · intro h
            exact Or.inr ⟨k, rfl, h2, h⟩
          · rintro (h | ⟨k', hk', _, hint⟩)
            · exact absurd h1 h
            · simp only [Option.some.injEq] at hk'
              subst hk'
              exact hint
    · simp [eventLoad, h1]
  · by_cases hdir : dirPresent = false
    · subst hdir
      simp [eventsLoad]
    · have hdir' : dirPresent = true := by
        cases dirPresent
        · exact absurd rfl hdir
        · rfl
      subst hdir'
      simp only [eventsLoad, Bool.not_eq_true, not_true_eq_false, if_false,
        Bool.true_eq_false, false_or]
      rw [eventsLoadLoop_false_iff children 0 cintr]
      simp

/-- C4: a framing-level `DataLossError` while fetching record `d`
aborts the whole poll for this cycle: records before `d` are decoded
and committed, the bad record's offset is not committed (the committed
offset stays at the start of record `d`), `load` still returns `True`
so the loader is retained, and the next poll (with the error gone,
e.g. the writer finished the record) starts by decoding exactly
record `d`. -/
theorem eventLoader_dataLoss_aborts_poll_retries (fv : FileView) (k d : Nat)
    (hpres : fv.present = true) (hk : k ≤ d) (hd : d < fv.recs.length)
    (hpos : ∀ r ∈ fv.recs, 0 < r) :
    (eventLoad fv (endOffset fv.recs k) noIntr (some d)).flag = true ∧
    (eventLoad fv (endOffset fv.recs k) noIntr (some d)).offset =
      endOffset fv.recs d ∧
    (∀ p ∈ (eventLoad fv (endOffset fv.recs k) noIntr (some d)).trace, p.1 < d) ∧
    (eventLoad fv (endOffset fv.recs d) noIntr none).trace.head? =
      some (d, endOffset fv.recs (d + 1)) := by
  have hkl : k ≤ fv.recs.length := by omega
  have hlt : ∀ j, j ≤ d → endOffset fv.recs j < fv.size := by
    intro j hj
    calc endOffset fv.recs j ≤ endOffset fv.recs d := endOffset_mono _ _ _ hj
    _ < endOffset fv.recs (d + 1) := endOffset_lt_succ _ _ hd hpos
    _ ≤ fv.size := endOffset_le_size _ _
  have h1 : fv.present = true ∧ endOffset fv.recs k ≤ fv.size :=
    ⟨hpres, endOffset_le_size _ _⟩
  have h2 : endOffset fv.recs k ≠ fv.size := Nat.ne_of_lt (hlt k hk)
  have hload : eventLoad fv (endOffset fv.recs k) noIntr (some d) =
      loadLoop (fv.recs.drop k) k (endOffset fv.recs k) noIntr (some d) :=
    eventLoad_eq_loop fv _ noIntr (some d) h1 h2 k
      (boundaryIdx_endOffset fv.recs k hkl hpos)
  have hlen : d < k + (fv.recs.drop k).length := by
    rw [List.length_drop]
    omega
  obtain ⟨ho, hf, ht⟩ := loadLoop_dataLoss (fv.recs.drop k) k (endOffset fv.recs k)
    d noIntr (fun _ => rfl) hk hlen
  have hoff : (eventLoad fv (endOffset fv.recs k) noIntr (some d)).offset =
      endOffset fv.recs d := by
    rw [hload, ho, ← endOffset_add fv.recs k (d - k)]
    congr 1
    omega
  refine ⟨by rw [hload]; exact hf, hoff, by rw [hload]; exact ht, ?_⟩
  have h1' : fv.present = true ∧ endOffset fv.recs d ≤ fv.size :=
    ⟨hpres, endOffset_le_size _ _⟩
  have h2' : endOffset fv.recs d ≠ fv.size := Nat.ne_of_lt (hlt d (le_refl d))
  have hload' : eventLoad fv (endOffset fv.recs d) noIntr none =
      loadLoop (fv.recs.drop d) d (endOffset fv.recs d) noIntr none :=
    eventLoad_eq_loop fv _ noIntr none h1' h2' d
      (boundaryIdx_endOffset fv.recs d (by omega) hpos)
  rw [hload', List.drop_eq_getElem_cons hd,
    loadLoop_head _ _ _ _ noIntr rfl]
  have htake : (fv.recs.drop d).take 1 = [fv.recs[d]] := by
    rw [List.drop_eq_getElem_cons hd]
    rfl
  have : endOffset fv.recs d + fv.recs[d] = endOffset fv.recs (d + 1) := by
    rw [endOffset_add fv.recs d 1, htake]
    simp
  rw [this]

/-- C4 witness: with three records and a decode error on the middle
one, the poll keeps the loader, stops committing before the bad
record, and the next clean poll decodes it first. -/
theorem eventLoader_dataLoss_witness :
    (eventLoad ⟨true, [16, 20, 24], 0⟩ (endOffset [16, 20, 24] 0) noIntr
      (some 1)).flag = true ∧
    (eventLoad ⟨true, [16, 20, 24], 0⟩ (endOffset [16, 20, 24] 0) noIntr
      (some 1)).offset = endOffset [16, 20, 24] 1 ∧
    (eventLoad ⟨true, [16, 20, 24], 0⟩ (endOffset [16, 20, 24] 1) noIntr
      none).trace.head? = some (1, endOffset [16, 20, 24] 2) := by
  obtain ⟨ha, hb, _, hc⟩ := eventLoader_dataLoss_aborts_poll_retries
    ⟨true, [16, 20, 24], 0⟩ 0 1 rfl (by decide) (by decide) (by decide)
  exact ⟨ha, hb, hc⟩

/-! ## `DataLoader._add_entry` (loader.py lines 543–570)

The ingestion index.  Tags are tuples of path components
(`tuple[str|int]`); only their decidable equality matters here, so a
tag is a list of strings.  A per-step entry carries its originating
file offset, which serves as the entry's identity (two duplicate
entries for the same step differ in offset or index).  Qt signal
emission (`load_tag`, `load_step`, …), `_tag_types` and
`_pending_steps` do not feed back into the index and are omitted. -/

abbrev Tag := List String

structure PEntry where
  tag : Tag
  step : Nat
  offset : Nat
  deriving Repr, DecidableEq

structure GEntry where
  tag : Tag
  uid : Nat
  deriving Repr, DecidableEq

/-- `Entry` argument of `_add_entry`: `entry.is_per_step()` selects
the branch. -/
inductive EntryU where
  | perStep (p : PEntry)
  | global (g : GEntry)
  deriving Repr, DecidableEq

structure DataLoaderState where
  tag_index : List (Tag × List PEntry)              -- `self._tag_index`
  global_tag_index : List (Tag × GEntry)            -- `self._global_tag_index`
  step_index : List (Nat × List (Tag × PEntry))     -- `self._step_index`
  steps : List Nat                                  -- `self._steps`
  tags : List Tag                                   -- `self._tags`
  deriving Repr, DecidableEq

def initState : DataLoaderState := ⟨[], [], [], [], []⟩

/-- `bisect.insort_right(lst, entry)` with `PerStepEntry.__lt__`
comparing steps: insert after every element whose step is `≤` the new
entry's step (linear form; coincides with the binary search on the
sorted lists the code maintains). -/
def insortRightP (l : List PEntry) (p : PEntry) : List PEntry :=
  match l with
  | [] => [p]
  | x :: xs => if p.step < x.step then p :: x :: xs else x :: insortRightP xs p

/-- `stepidx = bisect.bisect_left(self._steps, step)` followed by
`if stepidx >= len(self._steps) or self._steps[stepidx] != step:
self._steps.insert(stepidx, step)`: insert keeping the list sorted,
skipping an already-present step. -/
def insortLeftNoDup (l : List Nat) (s : Nat) : List Nat :=
  match l with
  | [] => [s]
  | x :: xs =>
    if s < x then s :: x :: xs
    else if s = x then x :: xs
    else x :: insortLeftNoDup xs s

/-- The two `self._tag_index` writes of the per-step branch: create an
empty list for a fresh tag, then `insort_right` the entry into it. -/
def updTagIndex (ti : List (Tag × List PEntry)) (p : PEntry) : List (Tag × List PEntry) :=
  let base := if (lookupA p.tag ti).isNone then ti ++ [(p.tag, [])] else ti
  setA base p.tag (insortRightP ((lookupA p.tag base).getD []) p)

/-- The two `self._step_index` writes of the per-step branch: create an
empty dict for a fresh step, then `self._step_index[step][tag] = entry`. -/
def updStepIndex (si : List (Nat × List (Tag × PEntry))) (p : PEntry) :
    List (Nat × List (Tag × PEntry)) :=
  let base := if (lookupA p.step si).isNone then si ++ [(p.step, [])] else si
  setA base p.step (setA ((lookupA p.step base).getD []) p.tag p)

/-- `DataLoader._add_entry`.  The returned `Bool` is `false` when the
`assert entry.tag not in self._global_tag_index` fires: the
`AssertionError` propagates before any mutation, so the state is
returned unchanged. -/
def addEntry (st : DataLoaderState) (e : EntryU) : DataLoaderState × Bool :=
  match e with
  | .perStep p =>
    ({ st with
        step_index := updStepIndex st.step_index p,
        tag_index := updTagIndex st.tag_index p,
        tags := if (lookupA p.tag st.tag_index).isNone then st.tags ++ [p.tag] else st.tags,
        steps := insortLeftNoDup st.steps p.step }, true)
  | .global g =>
    if (lookupA g.tag st.global_tag_index).isSome then (st, false)
    else ({ st with global_tag_index := st.global_tag_index ++ [(g.tag, g)] }, true)

/-- A sequence of per-step insertions. -/
def addAllP (st : DataLoaderState) (l : List PEntry) : DataLoaderState :=
  l.foldl (fun s p => (addEntry s (.perStep p)).1) st

/-- `self._step_index[step][tag]`, read as the consumers do. -/
def lookup2 (st : DataLoaderState) (s : Nat) (t : Tag) : Option PEntry :=
  match lookupA s st.step_index with
  | none => none
  | some inner => lookupA t inner

theorem insortLeftNoDup_mem (l : List Nat) (s x : Nat) :
    x ∈ insortLeftNoDup l s ↔ x ∈ l ∨ x = s := by
  induction l with
  | nil => simp [insortLeftNoDup, eq_comm]
  | cons y ys ih =>
    simp only [insortLeftNoDup]
    by_cases h1 : s < y
    · rw [if_pos h1]
      simp only [List.mem_cons]
      tauto
    · rw [if_neg h1]
      by_cases h2 : s = y
      · rw [if_pos h2]
        subst h2
        simp only [List.mem_cons]
        tauto
      · rw [if_neg h2]
        simp only [List.mem_cons, ih]
        tauto

theorem insortLeftNoDup_pairwise (l : List Nat) (s : Nat)
    (h : l.Pairwise (· < ·)) : (insortLeftNoDup l s).Pairwise (· < ·) := by
  induction l with
  | nil => simp [insortLeftNoDup]
  | cons x xs ih =>
    obtain ⟨hx, hxs⟩ := List.pairwise_cons.mp h
    by_cases h1 : s < x
    · simp only [insortLeftNoDup, if_pos h1]
      refine List.pairwise_cons.mpr ⟨?_, h⟩
      intro z hz
      rcases List.mem_cons.mp hz with rfl | hz'
      · exact h1
      · exact lt_trans h1 (hx z hz')
    · by_cases h2 : s = x
      · simpa [insortLeftNoDup, h1, h2] using h
      · simp only [insortLeftNoDup, if_neg h1, if_neg h2]
        refine List.pairwise_cons.mpr ⟨?_, ih hxs⟩
        intro z hz
        rcases (insortLeftNoDup_mem xs s z).mp hz with hz' | rfl
        · exact hx z hz'
        · omega

theorem insortRightP_mem (l : List PEntry) (p q : PEntry) :
    q ∈ insortRightP l p ↔ q ∈ l ∨ q = p := by
  induction l with
  | nil => simp [insortRightP, eq_comm]
  | cons x xs ih =>
    by_cases h1 : p.step < x.step
    · simp only [insortRightP, if_pos h1, List.mem_cons]
      tauto
    · simp only [insortRightP, if_neg h1, List.mem_cons, ih]
      tauto

theorem insortRightP_pairwise (l : List PEntry) (p : PEntry)
    (h : l.Pairwise (fun a b => a.step ≤ b.step)) :
    (insortRightP l p).Pairwise (fun a b => a.step ≤ b.step) := by
  induction l with
  | nil => simp [insortRightP]
  | cons x xs ih =>
    obtain ⟨hx, hxs⟩ := List.pairwise_cons.mp h
    by_cases h1 : p.step < x.step
    · simp only [insortRightP, if_pos h1]
      refine List.pairwise_cons.mpr ⟨?_, h⟩
      intro z hz
      rcases List.mem_cons.mp hz with rfl | hz'
      · omega
      · have := hx z hz'
        omega
    · simp only [insortRightP, if_neg h1]
      refine List.pairwise_cons.mpr ⟨?_, ih hxs⟩
      intro z hz
      rcases (insortRightP_mem xs p z).mp hz with hz' | rfl
      · exact hx z hz'
      · omega

theorem insortRightP_filter_ne (l : List PEntry) (p : PEntry) (s : Nat)
    (hs : p.step ≠ s) :
    (insortRightP l p).filter (fun q => q.step == s) =
      l.filter (fun q => q.step == s) := by
  induction l with
  | nil => simp [insortRightP, List.filter_cons, hs]
  | cons x xs ih =>
    by_cases h1 : p.step < x.step
    · simp only [insortRightP, if_pos h1]
      rw [List.filter_cons, List.filter_cons]
      simp [hs]
    · simp only [insortRightP, if_neg h1]
      rw [List.filter_cons, List.filter_cons, ih]

theorem insortRightP_filter_self (l : List PEntry) (p : PEntry)
    (h : l.Pairwise (fun a b => a.step ≤ b.step)) :
    (insortRightP l p).filter (fun q => q.step == p.step) =
      l.filter (fun q => q.step == p.step) ++ [p] := by
  induction l with
  | nil => simp [insortRightP, List.filter]
  | cons x xs ih =>
    obtain ⟨hx, hxs⟩ := List.pairwise_cons.mp h
    by_cases h1 : p.step < x.step
    · simp only [insortRightP, if_pos h1]
      have hnil : (x :: xs).filter (fun q => q.step == p.step) = [] := by
        rw [List.filter_eq_nil_iff]
        intro q hq
        rcases List.mem_cons.mp hq with rfl | hq'
        · simp
          omega
        · have := hx q hq'
          simp
          omega
      rw [List.filter_cons, hnil]
      simp
    · simp only [insortRightP, if_neg h1]
      rw [List.filter_cons, List.filter_cons, ih hxs]
      by_cases h2 : x.step = p.step <;> simp [h2]

theorem updTagIndex_lookup_self (ti : List (Tag × List PEntry)) (p : PEntry) :
    lookupA p.tag (updTagIndex ti p) =
      some (insortRightP ((lookupA p.tag ti).getD []) p) := by
  unfold updTagIndex
  cases hl : lookupA p.tag ti with
  | none =>
    simp only [hl, Option.isNone_none, if_pos, Option.getD_none]
    rw [lookupA_setA_self]
    congr 1
    rw [lookupA_append_right ti p.tag [] hl]
    rfl
  | some l =>
    simp only [hl, Option.isNone_some, Bool.false_eq_true, if_false, Option.getD_some]
    rw [lookupA_setA_self]

theorem updTagIndex_lookup_ne (ti : List (Tag × List PEntry)) (p : PEntry) (t : Tag)
    (h : t ≠ p.tag) : lookupA t (updTagIndex ti p) = lookupA t ti := by
  unfold updTagIndex
  rw [lookupA_setA_ne _ _ _ _ h]
  cases hl : lookupA p.tag ti with
  | none =>
    simp only [hl, Option.isNone_none, if_pos]
    exact lookupA_append_ne ti p.tag t [] h
  | some l => simp [hl]

theorem updStepIndex_lookup_self (si : List (Nat × List (Tag × PEntry))) (p : PEntry) :
    lookupA p.step (updStepIndex si p) =
      some (setA ((lookupA p.step si).getD []) p.tag p) := by
  unfold updStepIndex
  cases hl : lookupA p.step si with
  | none =>
    simp only [hl, Option.isNone_none, if_pos, Option.getD_none]
    rw [lookupA_setA_self]
    congr 2
    rw [lookupA_append_right si p.step [] hl]
    rfl
  | some l =>
    simp only [hl, Option.isNone_some, Bool.false_eq_true, if_false, Option.getD_some]
    rw [lookupA_setA_self]

theorem updStepIndex_lookup_ne (si : List (Nat × List (Tag × PEntry))) (p : PEntry)
    (s : Nat) (h : s ≠ p.step) : lookupA s (updStepIndex si p) = lookupA s si := by
  unfold updStepIndex
  rw [lookupA_setA_ne _ _ _ _ h]
  cases hl : lookupA p.step si with
  | none =>
    simp only [hl, Option.isNone_none, if_pos]
    exact lookupA_append_ne si p.step s [] h
  | some l => simp [hl]

theorem filter_tag_step_nil (l : List PEntry) (t : Tag) (s : Nat)
    (h : l.filter (fun q => q.tag == t) = []) :
    l.filter (fun q => q.tag == t && q.step == s) = [] := by
  induction l with
  | nil => rfl
  | cons x xs ih =>
    rw [List.filter_cons] at h ⊢
    by_cases hx : (x.tag == t) = true
    · rw [if_pos hx] at h
      exact absurd h (List.cons_ne_nil _ _)
    · rw [if_neg hx] at h
      rw [if_neg (by simp at hx ⊢; intro hc; exact absurd hc hx)]
      exact ih h

/-- The index invariants maintained by the per-step branch of
`_add_entry`, relative to the full insertion history `added`. -/
def IndexInv (added : List PEntry) (st : DataLoaderState) : Prop :=
  st.steps.Pairwise (· < ·) ∧
  (∀ s, s ∈ st.steps ↔ ∃ p ∈ added, p.step = s) ∧
  (∀ t l, lookupA t st.tag_index = some l →
      l.Pairwise (fun a b => a.step ≤ b.step) ∧
      ∀ s, l.filter (fun q => q.step == s) =
        added.filter (fun q => q.tag == t && q.step == s)) ∧
  (∀ t, lookupA t st.tag_index = none →
      added.filter (fun q => q.tag == t) = []) ∧
  (∀ s t, lookup2 st s t =
    (added.filter (fun q => q.tag == t && q.step == s)).getLast?)

theorem IndexInv_init : IndexInv [] initState := by
  refine ⟨by simp [initState], by simp [initState], ?_, ?_, ?_⟩
  · intro t l hl
    simp [initState, lookupA] at hl
  · intro t _
    simp
  · intro s t
    simp [initState, lookup2, lookupA]

theorem IndexInv_addEntry (added : List PEntry) (st : DataLoaderState) (p : PEntry)
    (h : IndexInv added st) :
    IndexInv (added ++ [p]) ((addEntry st (.perStep p)).1) := by
  obtain ⟨h1, h2, h3, h4, h5⟩ := h
  refine ⟨?_, ?_, ?_, ?_, ?_⟩
  · exact insortLeftNoDup_pairwise st.steps p.step h1
  · intro s
    show s ∈ insortLeftNoDup st.steps p.step ↔ _
    rw [insortLeftNoDup_mem]
    constructor
    · rintro (hs | rfl)
      · obtain ⟨q, hq, hqs⟩ := (h2 s).mp hs
        exact ⟨q, by simp [hq], hqs⟩
      · exact ⟨p, by simp, rfl⟩
    · rintro ⟨q, hq, hqs⟩
      rcases List.mem_append.mp hq with hq' | hq'
      · exact Or.inl ((h2 s).mpr ⟨q, hq', hqs⟩)
      · have hqp : q = p := by simpa using hq'
        subst hqp
        exact Or.inr hqs.symm
  · intro t l hl
    show _ ∧ ∀ s, _
    by_cases ht : t = p.tag
    · subst ht
      rw [show (addEntry st (.perStep p)).1.tag_index = updTagIndex st.tag_index p from rfl,
        updTagIndex_lookup_self] at hl
      injection hl with hl2
      subst hl2
      cases hold : lookupA p.tag st.tag_index with
      | none =>
        simp only [hold, Option.getD_none]
        refine ⟨by simp [insortRightP], fun s => ?_⟩
        rw [List.filter_append, filter_tag_step_nil added p.tag s (h4 p.tag hold)]
        by_cases hs : p.step = s
        · subst hs
          simp [insortRightP, List.filter_cons]
        · simp [insortRightP, List.filter_cons, hs]
      | some old =>
        simp only [hold, Option.getD_some]
        obtain ⟨hsorted, hfilter⟩ := h3 p.tag old hold
        refine ⟨insortRightP_pairwise old p hsorted, fun s => ?_⟩
        rw [List.filter_append]
        by_cases hs : p.step = s
        · subst hs
          rw [insortRightP_filter_self old p hsorted, hfilter p.step]
          simp [List.filter_cons]
        · rw [insortRightP_filter_ne old p s hs, hfilter s]
          simp [List.filter_cons, hs]
    · rw [show (addEntry st (.perStep p)).1.tag_index = updTagIndex st.tag_index p from rfl,
        updTagIndex_lookup_ne _ _ _ ht] at hl
      obtain ⟨hsorted, hfilter⟩ := h3 t l hl
      refine ⟨hsorted, fun s => ?_⟩
      rw [hfilter s, List.filter_append]
      have : (p.tag == t) = false := by
        simp
        exact fun hc => ht hc.symm
      simp [List.filter_cons, this]
  · intro t hl
    by_cases ht : t = p.tag
    · subst ht
      rw [show (addEntry st (.perStep p)).1.tag_index = updTagIndex st.tag_index p from rfl,
        updTagIndex_lookup_self] at hl
      simp at hl
    · rw [show (addEntry st (.perStep p)).1.tag_index = updTagIndex st.tag_index p from rfl,
        updTagIndex_lookup_ne _ _ _ ht] at hl
      rw [List.filter_append, h4 t hl]
      have : (p.tag == t) = false := by
        simp
        exact fun hc => ht hc.symm
      simp [List.filter_cons, this]
  · intro s t
    have hsi : (addEntry st (.perStep p)).1.step_index = updStepIndex st.step_index p := rfl
    by_cases hs : s = p.step
    · subst hs
      unfold lookup2
      rw [hsi, updStepIndex_lookup_self]
      by_cases ht : t = p.tag
      · subst ht
        show lookupA p.tag (setA ((lookupA p.step st.step_index).getD []) p.tag p) = _
        rw [lookupA_setA_self, List.filter_append]
        simp [List.filter_cons, List.getLast?_concat]
      · show lookupA t (setA ((lookupA p.step st.step_index).getD []) p.tag p) = _
        rw [lookupA_setA_ne _ _ _ _ ht]
        have hrhs : (added ++ [p]).filter (fun q => q.tag == t && q.step == p.step) =
            added.filter (fun q => q.tag == t && q.step == p.step) := by
          rw [List.filter_append]
          have : (p.tag == t) = false := by
            simp
            exact fun hc => ht hc.symm
          simp [List.filter_cons, this]
        rw [hrhs, ← h5 p.step t]
        cases hold : lookupA p.step st.step_index with
        | none => simp [lookup2, hold, lookupA]
        | some inner => simp [lookup2, hold]
    · unfold lookup2
      rw [hsi, updStepIndex_lookup_ne _ _ _ hs]
      have hrhs : (added ++ [p]).filter (fun q => q.tag == t && q.step == s) =
          added.filter (fun q => q.tag == t && q.step == s) := by
        rw [List.filter_append]
        have : (p.step == s) = false := by
          simp
          exact fun hc => hs hc.symm
        simp [List.filter_cons, this]
      rw [hrhs, ← h5 s t]
      rfl

theorem IndexInv_addAllP (l : List PEntry) :
    ∀ (acc : List PEntry) (st : DataLoaderState),
      IndexInv acc st → IndexInv (acc ++ l) (addAllP st l) := by
  induction l with
  | nil =>
    intro acc st h
    simpa [addAllP] using h
  | cons p rest ih =>
    intro acc st h
    have h' := IndexInv_addEntry acc st p h
    have := ih (acc ++ [p]) _ h'
    simpa [addAllP, List.append_assoc] using this

/-- C3: after any sequence of per-step insertions through `_add_entry`,
(1) the global step list is strictly ascending and a step is present
exactly when some inserted entry reported it (so each distinct step
appears exactly once, regardless of how many tags reported it);
(2) each tag's entry list is sorted ascending by step, and for every
step value it holds exactly the entries inserted with that tag and
step, in insertion order (duplicates by step are permitted, inserted
to the right, earlier duplicates are not deleted); and (3) the
step→tag reverse map holds the most recently inserted entry for each
(step, tag) pair. -/
theorem dataLoader_add_entry_index_invariants (added : List PEntry) :
    (addAllP initState added).steps.Pairwise (· < ·) ∧
    (∀ s, s ∈ (addAllP initState added).steps ↔ ∃ p ∈ added, p.step = s) ∧
    (∀ t l, lookupA t (addAllP initState added).tag_index = some l →
      l.Pairwise (fun a b => a.step ≤ b.step) ∧
      ∀ s, l.filter (fun q => q.step == s) =
        added.filter (fun q => q.tag == t && q.step == s)) ∧
    (∀ s t, lookup2 (addAllP initState added) s t =
      (added.filter (fun q => q.tag == t && q.step == s)).getLast?) := by
  obtain ⟨a, b, c, _, e⟩ := IndexInv_addAllP added [] initState IndexInv_init
  exact ⟨a, by simpa using b, by simpa using c, by simpa using e⟩

/-- C3 witness: three concrete insertions, including a duplicate step
for tag `a`; the step list holds each distinct step once and the
reverse map returns the most recently inserted duplicate. -/
theorem dataLoader_add_entry_index_invariants_witness :
    lookup2 (addAllP initState [⟨["a"], 3, 0⟩, ⟨["b"], 1, 8⟩, ⟨["a"], 3, 16⟩]) 3 ["a"] =
      some ⟨["a"], 3, 16⟩ := by
  have h := (dataLoader_add_entry_index_invariants
    [⟨["a"], 3, 0⟩, ⟨["b"], 1, 8⟩, ⟨["a"], 3, 16⟩]).2.2.2 3 ["a"]
  rw [h]
  rfl

/-- C6: registering a global entry whose tag is already present in the
global-tag map fails fast (the `assert` fires) and leaves the whole
state — in particular the global-tag map — unchanged; registering a
fresh tag succeeds, maps the tag to exactly the new entry, and leaves
every other tag's mapping unchanged. -/
theorem dataLoader_global_entry_registration (st : DataLoaderState) (g : GEntry) :
    ((lookupA g.tag st.global_tag_index).isSome →
      (addEntry st (.global g)).2 = false ∧ (addEntry st (.global g)).1 = st) ∧
    (lookupA g.tag st.global_tag_index = none →
      (addEntry st (.global g)).2 = true ∧
      lookupA g.tag (addEntry st (.global g)).1.global_tag_index = some g ∧
      ∀ t, t ≠ g.tag →
        lookupA t (addEntry st (.global g)).1.global_tag_index =
          lookupA t st.global_tag_index) := by
  constructor
  · intro h
    have he : addEntry st (.global g) = (st, false) := by
      simp [addEntry, h]
    rw [he]
    exact ⟨rfl, rfl⟩
  · intro h
    have h' : ¬ (lookupA g.tag st.global_tag_index).isSome = true := by simp [h]
    have he : addEntry st (.global g) =
        ({ st with global_tag_index := st.global_tag_index ++ [(g.tag, g)] }, true) := by
      simp [addEntry, h']
    rw [he]
    refine ⟨rfl, ?_, ?_⟩
    · exact lookupA_append_right _ _ _ h
    · intro t ht
      exact lookupA_append_ne _ _ _ _ ht

/-- C6 witness: registering tag `loss` twice — the second call fails
and changes nothing; the first call on the empty state succeeded. -/
theorem dataLoader_global_entry_registration_witness :
    (addEntry ⟨[], [(["loss"], ⟨["loss"], 0⟩)], [], [], []⟩
      (.global ⟨["loss"], 1⟩)).2 = false ∧
    (addEntry ⟨[], [(["loss"], ⟨["loss"], 0⟩)], [], [], []⟩
      (.global ⟨["loss"], 1⟩)).1 = ⟨[], [(["loss"], ⟨["loss"], 0⟩)], [], [], []⟩ :=
  (dataLoader_global_entry_registration
    ⟨[], [(["loss"], ⟨["loss"], 0⟩)], [], [], []⟩ ⟨["loss"], 1⟩).1 (by decide)

/-! ## `ScalarEntry` (scalar_data.py lines 6–63)

The global scalar accumulator.  The Python object keeps two parallel
dicts `self._steps` / `self._data` keyed by the *truncated* loader id
(`loader_id = (loader_id[0],)` at the top of `add_data`), plus the
aggregate `self._all_steps` and the first-seen key list
`self._all_loader_ids`.  Scalar values are Python floats; their
arithmetic is never used, so the payload is modelled as `Int`.
Signal emission (`step_added`) is omitted. -/

/-- `lst.insert(idx, a)`. -/
def insertAt {α : Type} (l : List α) (i : Nat) (a : α) : List α :=
  l.take i ++ a :: l.drop i

/-- `bisect.bisect_right(lst, s)`: on the sorted lists the code keeps,
this is the number of leading elements `≤ s` (linear form of the
binary search). -/
def bisectRight (l : List Nat) (s : Nat) : Nat :=
  (l.takeWhile (fun x => x ≤ s)).length

structure ScalarEntry where
  tag : Tag
  all_steps : List Nat                       -- `self._all_steps`
  all_loader_ids : List (List Nat)           -- `self._all_loader_ids`
  steps : List (List Nat × List Nat)         -- `self._steps`
  data : List (List Nat × List Int)          -- `self._data`
  deriving Repr, DecidableEq

/-- `ScalarEntry.__init__`. -/
def ScalarEntry.empty (tag : Tag) : ScalarEntry := ⟨tag, [], [], [], []⟩

/-- `ScalarEntry.add_data(step, value, loader_id)`.  The loader id is
truncated to its first component (`loader_id = (loader_id[0],)`); a
fresh partition gets two empty lists; both lists receive the insert at
the same `bisect_right` index. -/
def ScalarEntry.add_data (e : ScalarEntry) (step : Nat) (value : Int)
    (loader_id : List Nat) : ScalarEntry :=
  match lookupA (loader_id.take 1) e.steps with
  | none =>
    { e with
        all_steps := insortLeftNoDup e.all_steps step,
        steps := setA e.steps (loader_id.take 1)
          (insertAt [] (bisectRight [] step) step),
        data := setA e.data (loader_id.take 1)
          (insertAt [] (bisectRight [] step) value),
        all_loader_ids := e.all_loader_ids ++ [loader_id.take 1] }
  | some steps0 =>
    { e with
        all_steps := insortLeftNoDup e.all_steps step,
        steps := setA e.steps (loader_id.take 1)
          (insertAt steps0 (bisectRight steps0 step) step),
        data := setA e.data (loader_id.take 1)
          (insertAt ((lookupA (loader_id.take 1) e.data).getD [])
            (bisectRight steps0 step) value) }

/-- `ScalarEntry.steps(loader_id)` for a non-`None` argument:
`tuple(self._steps[loader_id])`, `none` modelling the `KeyError` when
the key is absent. -/
def ScalarEntry.stepsAt (e : ScalarEntry) (loader_id : List Nat) : Option (List Nat) :=
  lookupA loader_id e.steps

/-- `ScalarEntry.get_data(loader_id)`: `tuple(self._data[loader_id])`. -/
def ScalarEntry.get_data (e : ScalarEntry) (loader_id : List Nat) : Option (List Int) :=
  lookupA loader_id e.data

/-- A sequence of `add_data` calls, each a (step, value, loader_id)
triple. -/
def runAdds (e : ScalarEntry) (adds : List (Nat × Int × List Nat)) : ScalarEntry :=
  adds.foldl (fun acc q => acc.add_data q.1 q.2.1 q.2.2) e

/-- The order in which `add_data` first saw each (truncated) loader
id: `self._all_loader_ids` appends a key the first time it is
created. -/
def firstSeenAux (acc : List (List Nat)) : List (List Nat) → List (List Nat)
  | [] => acc
  | k :: ks => firstSeenAux (if k ∈ acc then acc else acc ++ [k]) ks

def firstSeen (ks : List (List Nat)) : List (List Nat) := firstSeenAux [] ks

/-- Structural right-insertion for `Nat`, matched below with
`insertAt`/`bisectRight`. -/
def insortRightN (l : List Nat) (x : Nat) : List Nat :=
  match l with
  | [] => [x]
  | y :: ys => if x < y then x :: y :: ys else y :: insortRightN ys x

theorem insertAt_bisectRight_eq (l : List Nat) (x : Nat) :
    insertAt l (bisectRight l x) x = insortRightN l x := by
  induction l with
  | nil => rfl
  | cons y ys ih =>
    by_cases h : y ≤ x
    · have hb : bisectRight (y :: ys) x = bisectRight ys x + 1 := by
        simp [bisectRight, List.takeWhile_cons, h]
      rw [hb]
      simp only [insortRightN, if_neg (by omega : ¬ x < y)]
      simp only [insertAt, List.take_succ_cons, List.drop_succ_cons, List.cons_append]
      rw [show List.take (bisectRight ys x) ys ++ x :: List.drop (bisectRight ys x) ys =
        insertAt ys (bisectRight ys x) x from rfl, ih]
    · have hb : bisectRight (y :: ys) x = 0 := by
        simp [bisectRight, List.takeWhile_cons, h]
      rw [hb]
      have hxy : x < y := by omega
      simp [insertAt, insortRightN, hxy]

theorem insortRightN_mem (l : List Nat) (x z : Nat) :
    z ∈ insortRightN l x ↔ z ∈ l ∨ z = x := by
  induction l with
  | nil => simp [insortRightN, eq_comm]
  | cons y ys ih =>
    by_cases h : x < y
    · simp only [insortRightN, if_pos h, List.mem_cons]
      tauto
    · simp only [insortRightN, if_neg h, List.mem_cons, ih]
      tauto

theorem insortRightN_pairwise (l : List Nat) (x : Nat)
    (h : l.Pairwise (· ≤ ·)) : (insortRightN l x).Pairwise (· ≤ ·) := by
  induction l with
  | nil => simp [insortRightN]
  | cons y ys ih =>
    obtain ⟨hy, hys⟩ := List.pairwise_cons.mp h
    by_cases h1 : x < y
    · simp only [insortRightN, if_pos h1]
      refine List.pairwise_cons.mpr ⟨?_, h⟩
      intro z hz
      rcases List.mem_cons.mp hz with rfl | hz'
      · omega
      · have := hy z hz'
        omega
    · simp only [insortRightN, if_neg h1]
      refine List.pairwise_cons.mpr ⟨?_, ih hys⟩
      intro z hz
      rcases (insortRightN_mem ys x z).mp hz with hz' | rfl
      · exact hy z hz'
      · omega

theorem insertAt_length {α : Type} (l : List α) (i : Nat) (a : α) :
    (insertAt l i a).length = l.length + 1 := by
  simp [insertAt]
  omega

theorem insertAt_zip {α β : Type} (s : List α) (d : List β) (i : Nat) (x : α) (y : β)
    (hlen : s.length = d.length) (hi : i ≤ s.length) :
    (insertAt s i x).zip (insertAt d i y) = insertAt (s.zip d) i (x, y) := by
  induction s generalizing d i with
  | nil =>
    have hd : d = [] := by
      cases d
      · rfl
      · simp at hlen
    subst hd
    have : i = 0 := by simpa using hi
    subst this
    rfl
  | cons a s' ih =>
    cases d with
    | nil => simp at hlen
    | cons b d' =>
      cases i with
      | zero => rfl
      | succ j =>
        simp only [insertAt, List.take_succ_cons, List.drop_succ_cons,
          List.cons_append, List.zip_cons_cons]
        have := ih d' j (by simpa using hlen) (by simpa using hi)
        simp only [insertAt] at this
        rw [this]

theorem insertAt_perm {α : Type} (l : List α) (i : Nat) (a : α) :
    (insertAt l i a).Perm (a :: l) := by
  unfold insertAt
  calc (l.take i ++ a :: l.drop i).Perm (a :: (l.take i ++ l.drop i)) := List.perm_middle
  _ = (a :: l) := by rw [List.take_append_drop]

theorem bisectRight_le_length (l : List Nat) (s : Nat) : bisectRight l s ≤ l.length := by
  unfold bisectRight
  exact (List.takeWhile_prefix _).length_le

theorem firstSeenAux_mem (ks : List (List Nat)) :
    ∀ acc x, x ∈ firstSeenAux acc ks ↔ x ∈ acc ∨ x ∈ ks := by
  induction ks with
  | nil => simp [firstSeenAux]
  | cons k ks' ih =>
    intro acc x
    simp only [firstSeenAux]
    rw [ih]
    by_cases hk : k ∈ acc
    · simp only [if_pos hk, List.mem_cons]
      constructor
      · rintro (h | h)
        · tauto
        · tauto
      · rintro (h | rfl | h)
        · tauto
        · tauto
        · tauto
    · simp only [if_neg hk, List.mem_append, List.mem_singleton, List.mem_cons]
      tauto

theorem firstSeenAux_append_one (ks : List (List Nat)) :
    ∀ acc k, firstSeenAux acc (ks ++ [k]) =
      (if k ∈ firstSeenAux acc ks then firstSeenAux acc ks
       else firstSeenAux acc ks ++ [k]) := by
  induction ks with
  | nil => intro acc k; simp [firstSeenAux]
  | cons k0 ks' ih =>
    intro acc k
    simp only [List.cons_append, firstSeenAux]
    exact ih _ k

theorem add_data_none (e : ScalarEntry) (st : Nat) (v : Int) (loader : List Nat)
    (hold : lookupA (loader.take 1) e.steps = none) :
    e.add_data st v loader =
      { e with
          all_steps := insortLeftNoDup e.all_steps st,
          steps := setA e.steps (loader.take 1) [st],
          data := setA e.data (loader.take 1) [v],
          all_loader_ids := e.all_loader_ids ++ [loader.take 1] } := by
  unfold ScalarEntry.add_data
  rw [hold]
  rfl

theorem add_data_some (e : ScalarEntry) (st : Nat) (v : Int) (loader : List Nat)
    (s0 : List Nat) (hold : lookupA (loader.take 1) e.steps = some s0) :
    e.add_data st v loader =
      { e with
          all_steps := insortLeftNoDup e.all_steps st,
          steps := setA e.steps (loader.take 1) (insertAt s0 (bisectRight s0 st) st),
          data := setA e.data (loader.take 1)
            (insertAt ((lookupA (loader.take 1) e.data).getD []) (bisectRight s0 st) v) } := by
  unfold ScalarEntry.add_data
  rw [hold]

/-- The alignment invariants maintained by `add_data`, relative to the
full call history `adds`. -/
def ScalarInv (adds : List (Nat × Int × List Nat)) (e : ScalarEntry) : Prop :=
  e.all_steps.Pairwise (· < ·) ∧
  (∀ s, s ∈ e.all_steps ↔ ∃ q ∈ adds, q.1 = s) ∧
  e.all_loader_ids = firstSeen (adds.map (fun q => q.2.2.take 1)) ∧
  (∀ lid, (lookupA lid e.steps).isSome ↔ lid ∈ e.all_loader_ids) ∧
  (∀ lid, (lookupA lid e.data).isSome ↔ (lookupA lid e.steps).isSome) ∧
  (∀ lid, lookupA lid e.steps = none →
    adds.filter (fun q => q.2.2.take 1 == lid) = []) ∧
  (∀ lid s d, lookupA lid e.steps = some s → lookupA lid e.data = some d →
    s.length = d.length ∧ s.Pairwise (· ≤ ·) ∧
    (s.zip d).Perm
      ((adds.filter (fun q => q.2.2.take 1 == lid)).map (fun q => (q.1, q.2.1))))

theorem ScalarInv_init (tag : Tag) : ScalarInv [] (ScalarEntry.empty tag) := by
  refine ⟨by simp [ScalarEntry.empty], by simp [ScalarEntry.empty], ?_, ?_, ?_, ?_, ?_⟩
  · rfl
  · intro lid
    simp [ScalarEntry.empty, lookupA, firstSeen, firstSeenAux]
  · intro lid
    simp [ScalarEntry.empty, lookupA]
  · intro lid _
    rfl
  · intro lid s d hs _
    simp [ScalarEntry.empty, lookupA] at hs

theorem ScalarInv_add (adds : List (Nat × Int × List Nat)) (e : ScalarEntry)
    (q : Nat × Int × List Nat) (h : ScalarInv adds e) :
    ScalarInv (adds ++ [q]) (e.add_data q.1 q.2.1 q.2.2) := by
  obtain ⟨qs, qv, qloader⟩ := q
  obtain ⟨h1, h2, h3, h4, h5, h6, h7⟩ := h
  have hmemfs : ∀ x ks, x ∈ firstSeen ks ↔ x ∈ ks := by
    intro x ks
    rw [firstSeen, firstSeenAux_mem]
    simp
  cases hold : lookupA (qloader.take 1) e.steps with
  | none =>
    rw [add_data_none e qs qv qloader hold]
    have hnotin : qloader.take 1 ∉ e.all_loader_ids := by
      intro hc
      have := (h4 (qloader.take 1)).mpr hc
      rw [hold] at this
      simp at this
    refine ⟨insortLeftNoDup_pairwise _ _ h1, ?_, ?_, ?_, ?_, ?_, ?_⟩
    · intro s
      rw [insortLeftNoDup_mem]
      constructor
      · rintro (hs | hseq)
        · obtain ⟨q', hq', hqs⟩ := (h2 s).mp hs
          exact ⟨q', by simp [hq'], hqs⟩
        · exact ⟨(qs, qv, qloader), by simp, hseq.symm⟩
      · rintro ⟨q', hq', hqs⟩
        rcases List.mem_append.mp hq' with hq'' | hq''
        · exact Or.inl ((h2 s).mpr ⟨q', hq'', hqs⟩)
        · have : q' = (qs, qv, qloader) := by simpa using hq''
          subst this
          exact Or.inr hqs.symm
    · show e.all_loader_ids ++ [qloader.take 1] = _
      rw [List.map_append, List.map_cons, List.map_nil, firstSeen,
        firstSeenAux_append_one]
      rw [show firstSeenAux [] (adds.map (fun q => q.2.2.take 1)) =
        firstSeen (adds.map (fun q => q.2.2.take 1)) from rfl]
      rw [if_neg (by rw [← h3]; exact hnotin), ← h3]
    · intro lid
      by_cases hl : lid = qloader.take 1
      · subst hl
        rw [lookupA_setA_self]
        simp
      · rw [lookupA_setA_ne _ _ _ _ hl]
        rw [h4 lid]
        constructor
        · intro hm
          exact List.mem_append.mpr (Or.inl hm)
        · intro hm
          rcases List.mem_append.mp hm with hm' | hm'
          · exact hm'
          · exact absurd (by simpa using hm') hl
    · intro lid
      by_cases hl : lid = qloader.take 1
      · subst hl
        rw [lookupA_setA_self, lookupA_setA_self]
        simp
      · rw [lookupA_setA_ne _ _ _ _ hl, lookupA_setA_ne _ _ _ _ hl]
        exact h5 lid
    · intro lid hls
      by_cases hl : lid = qloader.take 1
      · subst hl
        rw [lookupA_setA_self] at hls
        cases hls
      · rw [lookupA_setA_ne _ _ _ _ hl] at hls
        rw [List.filter_append, h6 lid hls]
        have : (qloader.take 1 == lid) = false := by
          simp
          exact fun hc => hl hc.symm
        simp [List.filter_cons, this]
    · intro lid s d hs hd
      by_cases hl : lid = qloader.take 1
      · subst hl
        rw [lookupA_setA_self] at hs hd
        injection hs with hs2
        injection hd with hd2
        subst hs2
        subst hd2
        refine ⟨rfl, by simp, ?_⟩
        rw [List.filter_append, h6 _ hold]
        simp [List.filter_cons]
      · rw [lookupA_setA_ne _ _ _ _ hl] at hs hd
        obtain ⟨ha, hb, hc⟩ := h7 lid s d hs hd
        refine ⟨ha, hb, ?_⟩
        rw [List.filter_append]
        have : (qloader.take 1 == lid) = false := by
          simp
          exact fun hcc => hl hcc.symm
        simp only [List.filter_cons, this, Bool.false_eq_true, if_false,
          List.filter_nil, List.append_nil]
        exact hc
  | some s0 =>
    have hdata : ∃ d0, lookupA (qloader.take 1) e.data = some d0 := by
      have := (h5 (qloader.take 1)).2
      rw [hold] at this
      have h' := this (by simp)
      cases hdd : lookupA (qloader.take 1) e.data with
      | none => rw [hdd] at h'; simp at h'
      | some d0 => exact ⟨d0, rfl⟩
    obtain ⟨d0, hd0⟩ := hdata
    rw [add_data_some e qs qv qloader s0 hold]
    obtain ⟨hlen0, hsort0, hperm0⟩ := h7 _ s0 d0 hold hd0
    have hin : qloader.take 1 ∈ e.all_loader_ids := by
      apply (h4 _).mp
      rw [hold]
      simp
    refine ⟨insortLeftNoDup_pairwise _ _ h1, ?_, ?_, ?_, ?_, ?_, ?_⟩
    · intro s
      rw [insortLeftNoDup_mem]
      constructor
      · rintro (hs | hseq)
        · obtain ⟨q', hq', hqs⟩ := (h2 s).mp hs
          exact ⟨q', by simp [hq'], hqs⟩
        · exact ⟨(qs, qv, qloader), by simp, hseq.symm⟩
      · rintro ⟨q', hq', hqs⟩
        rcases List.mem_append.mp hq' with hq'' | hq''
        · exact Or.inl ((h2 s).mpr ⟨q', hq'', hqs⟩)
        · have : q' = (qs, qv, qloader) := by simpa using hq''
          subst this
          exact Or.inr hqs.symm
    · show e.all_loader_ids = _
      rw [List.map_append, List.map_cons, List.map_nil, firstSeen,
        firstSeenAux_append_one]
      rw [show firstSeenAux [] (adds.map (fun q => q.2.2.take 1)) =
        firstSeen (adds.map (fun q => q.2.2.take 1)) from rfl]
      rw [if_pos (by rw [← h3]; exact hin), ← h3]
    · intro lid
      by_cases hl : lid = qloader.take 1
      · subst hl
        rw [lookupA_setA_self]
        simpa using hin
      · rw [lookupA_setA_ne _ _ _ _ hl]
        exact h4 lid
    · intro lid
      by_cases hl : lid = qloader.take 1
      · subst hl
        rw [lookupA_setA_self, lookupA_setA_self]
        simp
      · rw [lookupA_setA_ne _ _ _ _ hl, lookupA_setA_ne _ _ _ _ hl]
        exact h5 lid
    · intro lid hls
      by_cases hl : lid = qloader.take 1
      · subst hl
        rw [lookupA_setA_self] at hls
        cases hls
      · rw [lookupA_setA_ne _ _ _ _ hl] at hls
        rw [List.filter_append, h6 lid hls]
        have : (qloader.take 1 == lid) = false := by
          simp
          exact fun hc => hl hc.symm
        simp [List.filter_cons, this]
    · intro lid s d hs hd
      by_cases hl : lid = qloader.take 1
      · subst hl
        rw [lookupA_setA_self] at hs hd
        injection hs with hs2
        injection hd with hd2
        subst hs2
        subst hd2
        rw [hd0]
        refine ⟨?_, ?_, ?_⟩
        · rw [insertAt_length, insertAt_length]
          simp [hlen0]
        · rw [insertAt_bisectRight_eq]
          exact insortRightN_pairwise s0 qs hsort0
        · simp only [Option.getD_some]
          rw [insertAt_zip s0 d0 _ qs qv hlen0 (bisectRight_le_length s0 qs)]
          refine (insertAt_perm _ _ _).trans ?_
          rw [List.filter_append]
          simp only [List.filter_cons, beq_self_eq_true, Bool.and_self, if_pos,
            List.filter_nil, List.map_append, List.map_cons, List.map_nil]
          refine ((hperm0.cons (qs, qv)).trans ?_)
          exact (List.perm_append_singleton _ _).symm
      · rw [lookupA_setA_ne _ _ _ _ hl] at hs hd
        obtain ⟨ha, hb, hc⟩ := h7 lid s d hs hd
        refine ⟨ha, hb, ?_⟩
        rw [List.filter_append]
        have : (qloader.take 1 == lid) = false := by
          simp
          exact fun hcc => hl hcc.symm
        simp only [List.filter_cons, this, Bool.false_eq_true, if_false,
          List.filter_nil, List.append_nil]
        exact hc

theorem ScalarInv_runAdds (adds : List (Nat × Int × List Nat)) :
    ∀ (acc : List (Nat × Int × List Nat)) (e : ScalarEntry),
      ScalarInv acc e → ScalarInv (acc ++ adds) (runAdds e adds) := by
  induction adds with
  | nil =>
    intro acc e h
    simpa [runAdds] using h
  | cons q rest ih =>
    intro acc e h
    have h' := ScalarInv_add acc e q h
    have := ih (acc ++ [q]) _ h'
    simpa [runAdds, List.append_assoc] using this

/-- C10: every `add_data` call preserves the entry's alignment
invariants: for each loader partition the step list and the value
list have equal length and the inserted step and value occupy the same
index (so the zip of the two lists holds exactly the (step, value)
pairs added to that partition); each per-partition step list is sorted
ascending with duplicates allowed; the aggregate step list is strictly
ascending (no duplicates) and holds exactly the steps ever added; and
`loader_ids()` lists partitions in first-seen order. -/
theorem scalar_add_data_alignment_invariants (tag : Tag)
    (adds : List (Nat × Int × List Nat)) :
    (∀ lid s d,
      lookupA lid (runAdds (ScalarEntry.empty tag) adds).steps = some s →
      lookupA lid (runAdds (ScalarEntry.empty tag) adds).data = some d →
      s.length = d.length ∧ s.Pairwise (· ≤ ·) ∧
      (s.zip d).Perm
        ((adds.filter (fun q => q.2.2.take 1 == lid)).map (fun q => (q.1, q.2.1)))) ∧
    (runAdds (ScalarEntry.empty tag) adds).all_steps.Pairwise (· < ·) ∧
    (∀ s, s ∈ (runAdds (ScalarEntry.empty tag) adds).all_steps ↔
      ∃ q ∈ adds, q.1 = s) ∧
    (runAdds (ScalarEntry.empty tag) adds).all_loader_ids =
      firstSeen (adds.map (fun q => q.2.2.take 1)) := by
  obtain ⟨h1, h2, h3, _, _, _, h7⟩ :=
    ScalarInv_runAdds adds [] (ScalarEntry.empty tag) (ScalarInv_init tag)
  refine ⟨?_, h1, ?_, h3⟩
  · intro lid s d hs hd
    simpa using h7 lid s d hs hd
  · intro s
    rw [h2 s]
    simp

/-- C10 witness: two adds under sibling loader ids land in one
partition, registered once, with the aggregate step list deduplicated. -/
theorem scalar_add_data_alignment_invariants_witness :
    (runAdds (ScalarEntry.empty ["loss"]) [(2, 20, [0, 0]), (2, 30, [0, 1])]).all_loader_ids =
      firstSeen [[0], [0]] :=
  (scalar_add_data_alignment_invariants ["loss"] [(2, 20, [0, 0]), (2, 30, [0, 1])]).2.2.2

/-- C7 counterexample: two sibling child loaders `(0, 0)` and `(0, 1)`
of one directory source each add one observation to the same tag.
Contrary to the claim, `steps((0, 0))` does not return that loader's
observations — the partition key is the truncated id, so the lookup by
the full id finds nothing (a `KeyError`), while the single truncated
partition `(0,)` holds both loaders' observations merged. -/
theorem scalar_loader_partition_cex :
    ScalarEntry.stepsAt
      ((ScalarEntry.empty ["loss"]).add_data 1 10 [0, 0] |>.add_data 2 20 [0, 1])
      [0, 0] = none ∧
    ScalarEntry.stepsAt
      ((ScalarEntry.empty ["loss"]).add_data 1 10 [0, 0] |>.add_data 2 20 [0, 1])
      [0] = some [1, 2] ∧
    ScalarEntry.get_data
      ((ScalarEntry.empty ["loss"]).add_data 1 10 [0, 0] |>.add_data 2 20 [0, 1])
      [0] = some [10, 20] :=
  ⟨rfl, rfl, rfl⟩

/-- C7 (amended): observations are partitioned by the *first component*
of the loader id.  For each one-element key `[a]`, `steps`/`get_data`
return exactly the (step, value) observations added under loader ids
whose first component is `a` — so two loaders differing in their first
component are fully isolated, while sibling child loaders of one
directory source (same first component) share a partition; and a
lookup by a full multi-component loader id always fails (`KeyError`). -/
theorem scalar_partitioned_by_first_component (tag : Tag)
    (adds : List (Nat × Int × List Nat)) (a : Nat) :
    ((((runAdds (ScalarEntry.empty tag) adds).stepsAt [a]).getD []).zip
      (((runAdds (ScalarEntry.empty tag) adds).get_data [a]).getD [])).Perm
      ((adds.filter (fun q => q.2.2.take 1 == [a])).map (fun q => (q.1, q.2.1))) ∧
    (∀ lid, 2 ≤ lid.length →
      (runAdds (ScalarEntry.empty tag) adds).stepsAt lid = none) := by
  obtain ⟨_, _, h3, h4, h5, h6, h7⟩ :=
    ScalarInv_runAdds adds [] (ScalarEntry.empty tag) (ScalarInv_init tag)
  constructor
  · cases hs : lookupA [a] (runAdds (ScalarEntry.empty tag) adds).steps with
    | none =>
      have hnil := h6 [a] hs
      have hd : lookupA [a] (runAdds (ScalarEntry.empty tag) adds).data = none := by
        cases hd' : lookupA [a] (runAdds (ScalarEntry.empty tag) adds).data with
        | none => rfl
        | some d =>
          have := (h5 [a]).mp (by rw [hd']; simp)
          rw [hs] at this
          simp at this
      simp only [ScalarEntry.stepsAt, ScalarEntry.get_data, hs, hd, Option.getD_none]
      simp only [List.nil_append] at hnil
      rw [hnil]
      simp
    | some s =>
      have hd : ∃ d, lookupA [a] (runAdds (ScalarEntry.empty tag) adds).data = some d := by
        have := (h5 [a]).2 (by rw [hs]; simp)
        cases hd' : lookupA [a] (runAdds (ScalarEntry.empty tag) adds).data with
        | none => rw [hd'] at this; simp at this
        | some d => exact ⟨d, rfl⟩
      obtain ⟨d, hd'⟩ := hd
      obtain ⟨_, _, hperm⟩ := h7 [a] s d hs hd'
      simp only [ScalarEntry.stepsAt, ScalarEntry.get_data, hs, hd', Option.getD_some]
      simpa using hperm
  · intro lid hlen
    cases hs : lookupA lid (runAdds (ScalarEntry.empty tag) adds).steps with
    | none => exact hs
    | some s =>
      have hmem : lid ∈ (runAdds (ScalarEntry.empty tag) adds).all_loader_ids :=
        (h4 lid).mp (by rw [hs]; simp)
      rw [h3] at hmem
      rw [firstSeen, firstSeenAux_mem] at hmem
      rcases hmem with hmem | hmem
      · simp at hmem
      · obtain ⟨q, _, hq⟩ := List.mem_map.mp hmem
        have : lid.length ≤ 1 := by
          rw [← hq]
          simp [List.length_take]
        omega

/-- C7 amended witness: with the two sibling observations of the
counterexample, the truncated partition `[0]` pairs each step with its
own value, and the full-id lookup fails. -/
theorem scalar_partitioned_by_first_component_witness :
    ((((runAdds (ScalarEntry.empty ["loss"]) [(1, 10, [0, 0]), (2, 20, [0, 1])]).stepsAt
        [0]).getD []).zip
      (((runAdds (ScalarEntry.empty ["loss"]) [(1, 10, [0, 0]), (2, 20, [0, 1])]).get_data
        [0]).getD [])).Perm [(1, 10), (2, 20)] := by
  have h := (scalar_partitioned_by_first_component ["loss"]
    [(1, 10, [0, 0]), (2, 20, [0, 1])] 0).1
  simpa using h

/-! ## `ImageDataFuture` (image_data.py lines 18–70)

The image decode future.  `run`, `start` and `cancel` all take the
future's recursive mutex; `run` releases it only around
`read_image_data()` (`MutexUnlock`), so a concurrent `cancel` can take
effect before `run`, inside that read window, between `run` and a
later point, or after completion — never between the checks inside a
locked region.  An interleaving is a list of atomic events; the `run`
event carries whether a cancel lands in its unlock window
(`cancelDuring`) and whether the read raises (`readFails`).  The
thread pool executes a submitted runnable at most once, so valid
schedules contain at most one `run` event. -/

structure FutState where
  started : Bool       -- `self._started`
  finished : Bool      -- `self._finished`
  cancelled : Bool     -- `self._cancelled`
  imageData : Bool     -- `self._image_data is not None`
  submitted : Nat      -- `thread_pool.start(self)` calls
  doneCount : Nat      -- `signals.done` emissions
  dataCount : Nat      -- `signals.data_ready`/`raw_data_ready` emissions
  deriving Repr, DecidableEq

def futInit : FutState := ⟨false, false, false, false, 0, 0, 0⟩

/-- `ImageDataFuture.cancel`. -/
def cancelStep (s : FutState) : FutState :=
  if ¬ s.cancelled ∧ ¬ s.finished then
    { s with cancelled := true, finished := true, doneCount := s.doneCount + 1 }
  else s

/-- `ImageDataFuture.start`. -/
def startStep (s : FutState) : FutState :=
  if ¬ s.started then { s with started := true, submitted := s.submitted + 1 } else s

/-- `ImageDataFuture.run`.  `cancelDuring` injects a concurrent
`cancel` into the `MutexUnlock` read window (only reachable when the
read happens); `readFails` models an exception in
`read_image_data()`. -/
def runStep (s0 : FutState) (cancelDuring readFails : Bool) : FutState :=
  let doRead := ¬ s0.cancelled                     -- first `if not self._cancelled`
  let s1 := if doRead ∧ cancelDuring then cancelStep s0 else s0
  let exc := doRead ∧ readFails
  let s2 := if doRead ∧ ¬ readFails then { s1 with imageData := true } else s1
  let s3 :=                                        -- second `if not self._cancelled`
    if ¬ exc ∧ ¬ s2.cancelled then { s2 with dataCount := s2.dataCount + 1 } else s2
  if ¬ s3.cancelled then                           -- `finally:`
    { s3 with finished := true, doneCount := s3.doneCount + 1 }
  else s3

inductive FutEv where
  | start
  | cancel
  | run (cancelDuring readFails : Bool)
  deriving Repr, DecidableEq

def isRun : FutEv → Bool
  | .run _ _ => true
  | _ => false

/-- An event that makes the future reach a terminal state. -/
def isTerminal : FutEv → Bool
  | .start => false
  | _ => true

def futExec (s : FutState) : List FutEv → FutState
  | [] => s
  | .start :: rest => futExec (startStep s) rest
  | .cancel :: rest => futExec (cancelStep s) rest
  | .run c r :: rest => futExec (runStep s c r) rest

/-- State characterization before any `run` executed. -/
def FutPre (s : FutState) : Prop :=
  s.finished = s.cancelled ∧ s.doneCount = (if s.finished then 1 else 0) ∧
  s.dataCount = 0 ∧ s.submitted = (if s.started then 1 else 0)

/-- State characterization once a terminal transition happened. -/
def FutPost (s : FutState) : Prop :=
  s.finished = true ∧ s.submitted = (if s.started then 1 else 0)

theorem futExec_append (l1 l2 : List FutEv) (s : FutState) :
    futExec s (l1 ++ l2) = futExec (futExec s l1) l2 := by
  induction l1 generalizing s with
  | nil => rfl
  | cons ev rest ih =>
    cases ev <;> simp only [List.cons_append, futExec] <;> exact ih _

theorem futExec_pre (evs : List FutEv) (hnr : ∀ ev ∈ evs, isRun ev = false) :
    ∀ s, FutPre s →
      FutPre (futExec s evs) ∧
      ((futExec s evs).cancelled = true ↔ s.cancelled = true ∨ FutEv.cancel ∈ evs) := by
  induction evs with
  | nil =>
    intro s hs
    exact ⟨hs, by simp [futExec]⟩
  | cons ev rest ih =>
    intro s hs
    obtain ⟨hfc, hdone, hdata, hsub⟩ := hs
    cases ev with
    | start =>
      have hstep : FutPre (startStep s) ∧ (startStep s).cancelled = s.cancelled := by
        unfold startStep FutPre
        by_cases h : s.started <;> simp [h, hfc, hdone, hdata, hsub]
      obtain ⟨hp, hcanc⟩ := hstep
      obtain ⟨ha, hb⟩ := ih (fun ev hev => hnr ev (by simp [hev])) (startStep s) hp
      refine ⟨ha, ?_⟩
      rw [show futExec s (FutEv.start :: rest) = futExec (startStep s) rest from rfl, hb, hcanc]
      simp
    | cancel =>
      have hstep : FutPre (cancelStep s) ∧ (cancelStep s).cancelled = true := by
        unfold cancelStep FutPre
        cases hc : s.cancelled
        · have hf : s.finished = false := by rw [hfc, hc]
          simp [hc, hf, hdone, hdata, hsub]
        · have hf : s.finished = true := by rw [hfc, hc]
          simp [hc, hf, hdone, hdata, hsub]
      obtain ⟨hp, hcanc⟩ := hstep
      obtain ⟨ha, hb⟩ := ih (fun ev hev => hnr ev (by simp [hev])) (cancelStep s) hp
      refine ⟨ha, ?_⟩
      rw [show futExec s (FutEv.cancel :: rest) = futExec (cancelStep s) rest from rfl, hb, hcanc]
      simp
    | run c r =>
      have := hnr (.run c r) (by simp)
      simp [isRun] at this

theorem runStep_of_pre (s0 : FutState) (c r : Bool) (h : FutPre s0) :
    FutPost (runStep s0 c r) ∧
    (runStep s0 c r).doneCount = 1 ∧
    (runStep s0 c r).dataCount =
      (if s0.cancelled = false ∧ c = false ∧ r = false then 1 else 0) := by
  obtain ⟨hfc, hdone, hdata, hsub⟩ := h
  cases hc : s0.cancelled with
  | false =>
    have hf : s0.finished = false := by rw [hfc, hc]
    cases c <;> cases r <;>
      simp [runStep, cancelStep, FutPost, hc, hf, hdone, hdata, hsub]
  | true =>
    have hf : s0.finished = true := by rw [hfc, hc]
    cases c <;> cases r <;>
      simp [runStep, cancelStep, FutPost, hc, hf, hdone, hdata, hsub]

theorem futExec_post (evs : List FutEv) (hnr : ∀ ev ∈ evs, isRun ev = false) :
    ∀ s, FutPost s →
      FutPost (futExec s evs) ∧
      (futExec s evs).doneCount = s.doneCount ∧
      (futExec s evs).dataCount = s.dataCount := by
  induction evs with
  | nil =>
    intro s hs
    exact ⟨hs, rfl, rfl⟩
  | cons ev rest ih =>
    intro s hs
    obtain ⟨hf, hsub⟩ := hs
    cases ev with
    | start =>
      have hstep : FutPost (startStep s) ∧ (startStep s).doneCount = s.doneCount ∧
          (startStep s).dataCount = s.dataCount := by
        unfold startStep FutPost
        by_cases h : s.started <;> simp [h, hf, hsub]
      obtain ⟨hp, hd1, hd2⟩ := hstep
      obtain ⟨ha, hb, hcn⟩ := ih (fun ev hev => hnr ev (by simp [hev])) (startStep s) hp
      exact ⟨ha, by rw [show futExec s (FutEv.start :: rest) = futExec (startStep s) rest
        from rfl, hb, hd1], by rw [show futExec s (FutEv.start :: rest) =
        futExec (startStep s) rest from rfl, hcn, hd2]⟩
    | cancel =>
      have hstep : cancelStep s = s := by
        unfold cancelStep
        simp [hf]
      rw [show futExec s (FutEv.cancel :: rest) = futExec (cancelStep s) rest from rfl, hstep]
      exact ih (fun ev hev => hnr ev (by simp [hev])) s ⟨hf, hsub⟩
    | run c r =>
      have := hnr (.run c r) (by simp)
      simp [isRun] at this

theorem split_first_run (evs : List FutEv) :
    (∀ ev ∈ evs, isRun ev = false) ∨
    ∃ pre c r post, evs = pre ++ FutEv.run c r :: post ∧
      ∀ ev ∈ pre, isRun ev = false := by
  induction evs with
  | nil => exact Or.inl (by simp)
  | cons ev rest ih =>
    cases hev : ev with
    | run c r => exact Or.inr ⟨[], c, r, rest, by simp, by simp⟩
    | start =>
      rcases ih with h | ⟨pre, c, r, post, heq, hpre⟩
      · refine Or.inl ?_
        intro e he
        rcases List.mem_cons.mp he with rfl | he'
        · rfl
        · exact h e he'
      · refine Or.inr ⟨.start :: pre, c, r, post, by rw [heq]; rfl, ?_⟩
        intro e he
        rcases List.mem_cons.mp he with rfl | he'
        · rfl
        · exact hpre e he'
    | cancel =>
      rcases ih with h | ⟨pre, c, r, post, heq, hpre⟩
      · refine Or.inl ?_
        intro e he
        rcases List.mem_cons.mp he with rfl | he'
        · rfl
        · exact h e he'
      · refine Or.inr ⟨.cancel :: pre, c, r, post, by rw [heq]; rfl, ?_⟩
        intro e he
        rcases List.mem_cons.mp he with rfl | he'
        · rfl
        · exact hpre e he'

/-- C5: for every interleaving of `start`, `cancel` and at most one
worker execution of the future that reaches a terminal event — cancel
before start, during execution, or after completion, start called any
number of times — exactly one `done` notification is emitted in
total; the data-ready notification is emitted at most once, and only
when the single `run` executed with no failure, no cancel landing in
its read window, and no cancel before it; and repeated `start` calls
submit at most one unit of work to the pool. -/
theorem imageDataFuture_notifications (evs : List FutEv)
    (hrun : (evs.filter isRun).length ≤ 1)
    (hterm : ∃ ev ∈ evs, isTerminal ev = true) :
    (futExec futInit evs).doneCount = 1 ∧
    (futExec futInit evs).dataCount ≤ 1 ∧
    ((futExec futInit evs).dataCount = 1 →
      ∃ pre post, evs = pre ++ FutEv.run false false :: post ∧ FutEv.cancel ∉ pre) ∧
    (futExec futInit evs).submitted ≤ 1 := by
  have hinit : FutPre futInit := by
    unfold FutPre futInit
    simp
  rcases split_first_run evs with hA | ⟨pre, c, r, post, heq, hpre⟩
  · -- no run at all: the terminal event is a cancel
    obtain ⟨hP, hC⟩ := futExec_pre evs hA futInit hinit
    obtain ⟨hfc, hdone, hdata, hsub⟩ := hP
    obtain ⟨ev, hev, hterm'⟩ := hterm
    have hcanc : FutEv.cancel ∈ evs := by
      cases ev with
      | start => simp [isTerminal] at hterm'
      | cancel => exact hev
      | run c r =>
        have := hA _ hev
        simp [isRun] at this
    have : (futExec futInit evs).cancelled = true := hC.mpr (Or.inr hcanc)
    have hfin : (futExec futInit evs).finished = true := by rw [hfc, this]
    refine ⟨by rw [hdone, hfin]; rfl, by rw [hdata]; omega, ?_, ?_⟩
    · intro hd1
      rw [hdata] at hd1
      cases hd1
    · rw [hsub]
      by_cases h : (futExec futInit evs).started <;> simp [h]
  · -- exactly one run
    subst heq
    have hpost_nr : ∀ ev ∈ post, isRun ev = false := by
      have hfilter : ((pre ++ FutEv.run c r :: post).filter isRun) =
          pre.filter isRun ++ FutEv.run c r :: post.filter isRun := by
        rw [List.filter_append]
        simp [List.filter_cons, isRun]
      have hprenil : pre.filter isRun = [] := by
        rw [List.filter_eq_nil_iff]
        intro a ha
        simp [hpre a ha]
      rw [hfilter, hprenil] at hrun
      simp only [List.nil_append, List.length_cons] at hrun
      have hlen0 : (post.filter isRun).length = 0 := by omega
      intro ev hev
      have := List.filter_eq_nil_iff.mp (List.length_eq_zero.mp hlen0) ev hev
      simpa using this
    obtain ⟨hP, hC⟩ := futExec_pre pre hpre futInit hinit
    obtain ⟨hpost, hdone1, hdata1⟩ := runStep_of_pre (futExec futInit pre) c r hP
    have hrw : futExec futInit (pre ++ FutEv.run c r :: post) =
        futExec (runStep (futExec futInit pre) c r) post := by
      rw [futExec_append]
      rfl
    obtain ⟨hfpost, hdn, hdt⟩ :=
      futExec_post post hpost_nr (runStep (futExec futInit pre) c r) hpost
    rw [hrw, hdn, hdt, hdone1, hdata1]
    refine ⟨rfl, by split <;> omega, ?_, ?_⟩
    · intro hd1
      have hcond : (futExec futInit pre).cancelled = false ∧ c = false ∧ r = false := by
        by_contra hcc
        rw [if_neg hcc] at hd1
        cases hd1
      obtain ⟨hnc, rfl, rfl⟩ := hcond
      refine ⟨pre, post, rfl, ?_⟩
      intro hmem
      have := hC.mpr (Or.inr hmem)
      rw [hnc] at this
      cases this
    · obtain ⟨_, hsub'⟩ := hfpost
      rw [hsub']
      by_cases h : (futExec (runStep (futExec futInit pre) c r) post).started = true <;>
        simp [h]

/-- C5 witness: start, a clean run, then a late cancel — one `done`,
one data-ready. -/
theorem imageDataFuture_notifications_witness :
    (futExec futInit [FutEv.start, FutEv.run false false, FutEv.cancel]).doneCount = 1 ∧
    (futExec futInit [FutEv.start, FutEv.run false false, FutEv.cancel]).dataCount ≤ 1 ∧
    (futExec futInit [FutEv.start, FutEv.run false false, FutEv.cancel]).submitted ≤ 1 := by
  have h := imageDataFuture_notifications [FutEv.start, FutEv.run false false, FutEv.cancel]
    (by decide) (by decide)
  exact ⟨h.1, h.2.1, h.2.2.2⟩

/-! ## Index accessors (loader.py lines 646–684)

`DataLoader.steps` and `DataLoader.tags` return `list(self._steps)` /
`list(self._tags)` — fresh list objects holding a copy — while
`DataLoader.tag_index` returns `self._tag_index` itself.  To state
copy-versus-live-view facts, Python object identity is made explicit:
a small heap maps addresses to container objects; `list(x)` allocates
a fresh address; engine insertions (`list.insert`, `list.append`,
`dict.__setitem__`, `bisect.insort`) mutate the stored objects in
place at their existing addresses. -/

inductive PyObj where
  | natList (l : List Nat)                     -- a `list[int]`
  | tagList (l : List Tag)                     -- a `list[tuple]`
  | tagDict (d : List (Tag × List PEntry))     -- the tag-index `dict`
  deriving Repr, DecidableEq

structure Heap where
  mem : Nat → Option PyObj
  next : Nat

def Heap.alloc (h : Heap) (o : PyObj) : Heap × Nat :=
  (⟨fun a => if a = h.next then some o else h.mem a, h.next + 1⟩, h.next)

/-- In-place mutation of the object stored at `a`. -/
def mutateObj (h : Heap) (a : Nat) (f : PyObj → PyObj) : Heap :=
  match h.mem a with
  | some o => ⟨fun x => if x = a then some (f o) else h.mem x, h.next⟩
  | none => h

def readNatList (h : Heap) (a : Nat) : List Nat :=
  match h.mem a with
  | some (.natList l) => l
  | _ => []

def readTagList (h : Heap) (a : Nat) : List Tag :=
  match h.mem a with
  | some (.tagList l) => l
  | _ => []

def readTagDict (h : Heap) (a : Nat) : List (Tag × List PEntry) :=
  match h.mem a with
  | some (.tagDict d) => d
  | _ => []

def mutateNatList (h : Heap) (a : Nat) (f : List Nat → List Nat) : Heap :=
  mutateObj h a (fun o => match o with | .natList l => .natList (f l) | o => o)

def mutateTagList (h : Heap) (a : Nat) (f : List Tag → List Tag) : Heap :=
  mutateObj h a (fun o => match o with | .tagList l => .tagList (f l) | o => o)

def mutateTagDict (h : Heap) (a : Nat)
    (f : List (Tag × List PEntry) → List (Tag × List PEntry)) : Heap :=
  mutateObj h a (fun o => match o with | .tagDict d => .tagDict (f d) | o => o)

/-- The engine's three index attributes, by address. -/
structure EngineH where
  stepsAddr : Nat
  tagsAddr : Nat
  tagIndexAddr : Nat
  deriving Repr, DecidableEq

/-- Well-formedness: the three attributes are distinct allocated
objects of the right type. -/
structure EngineWF (e : EngineH) (h : Heap) : Prop where
  steps_lt : e.stepsAddr < h.next
  tags_lt : e.tagsAddr < h.next
  ti_lt : e.tagIndexAddr < h.next
  ne_st : e.stepsAddr ≠ e.tagsAddr
  ne_si : e.stepsAddr ≠ e.tagIndexAddr
  ne_ti : e.tagsAddr ≠ e.tagIndexAddr
  steps_ty : ∃ l, h.mem e.stepsAddr = some (.natList l)
  tags_ty : ∃ l, h.mem e.tagsAddr = some (.tagList l)
  ti_ty : ∃ d, h.mem e.tagIndexAddr = some (.tagDict d)

/-- `DataLoader.steps`: `return list(self._steps)` — allocate a fresh
list holding a copy. -/
def stepsProp (e : EngineH) (h : Heap) : Heap × Nat :=
  Heap.alloc h (.natList (readNatList h e.stepsAddr))

/-- `DataLoader.tags`: `return list(self._tags)`. -/
def tagsProp (e : EngineH) (h : Heap) : Heap × Nat :=
  Heap.alloc h (.tagList (readTagList h e.tagsAddr))

/-- `DataLoader.tag_index`: `return self._tag_index` — the stored
object itself, no allocation. -/
def tagIndexProp (e : EngineH) (h : Heap) : Heap × Nat :=
  (h, e.tagIndexAddr)

/-- The in-place index writes of the per-step branch of `_add_entry`:
`self._steps.insert`, `self._tags.append`, dict assignment and
`insort` into `self._tag_index`. -/
def addEntryH (e : EngineH) (h : Heap) (p : PEntry) : Heap :=
  let isNewTag := (lookupA p.tag (readTagDict h e.tagIndexAddr)).isNone
  let h1 := mutateNatList h e.stepsAddr (fun l => insortLeftNoDup l p.step)
  let h2 := mutateTagList h1 e.tagsAddr (fun l => if isNewTag then l ++ [p.tag] else l)
  mutateTagDict h2 e.tagIndexAddr (fun d => updTagIndex d p)

theorem mutateObj_mem_ne (h : Heap) (a a' : Nat) (f : PyObj → PyObj) (hne : a' ≠ a) :
    (mutateObj h a f).mem a' = h.mem a' := by
  unfold mutateObj
  cases h.mem a with
  | none => rfl
  | some o => simp [hne]

theorem mutateObj_next (h : Heap) (a : Nat) (f : PyObj → PyObj) :
    (mutateObj h a f).next = h.next := by
  unfold mutateObj
  cases h.mem a with
  | none => rfl
  | some o => rfl

theorem alloc_mem_old (h : Heap) (o : PyObj) (a : Nat) (ha : a < h.next) :
    (h.alloc o).1.mem a = h.mem a := by
  unfold Heap.alloc
  simp [Nat.ne_of_lt ha]

theorem alloc_mem_new (h : Heap) (o : PyObj) :
    (h.alloc o).1.mem (h.alloc o).2 = some o := by
  unfold Heap.alloc
  simp

theorem addEntryH_mem_other (e : EngineH) (h : Heap) (p : PEntry) (a : Nat)
    (h1 : a ≠ e.stepsAddr) (h2 : a ≠ e.tagsAddr) (h3 : a ≠ e.tagIndexAddr) :
    (addEntryH e h p).mem a = h.mem a := by
  simp only [addEntryH, mutateNatList, mutateTagList, mutateTagDict]
  rw [mutateObj_mem_ne _ _ _ _ h3, mutateObj_mem_ne _ _ _ _ h2, mutateObj_mem_ne _ _ _ _ h1]

/-- C9 counterexample: `tag_index` hands back the engine's own dict,
not a copy — clearing the returned object empties the engine's
internal tag index.  (`steps` and `tags` do return copies; see the
amended theorem.) -/
theorem tag_index_returns_live_view_cex :
    readTagDict
      (mutateTagDict
        (⟨fun a => if a = 0 then some (.natList [1])
            else if a = 1 then some (.tagList [["a"]])
            else if a = 2 then some (.tagDict [(["a"], [⟨["a"], 1, 0⟩])])
            else none, 3⟩ : Heap)
        (tagIndexProp ⟨0, 1, 2⟩
          ⟨fun a => if a = 0 then some (.natList [1])
            else if a = 1 then some (.tagList [["a"]])
            else if a = 2 then some (.tagDict [(["a"], [⟨["a"], 1, 0⟩])])
            else none, 3⟩).2
        (fun _ => []))
      (2 : Nat) = [] ∧
    readTagDict
      (⟨fun a => if a = 0 then some (.natList [1])
          else if a = 1 then some (.tagList [["a"]])
          else if a = 2 then some (.tagDict [(["a"], [⟨["a"], 1, 0⟩])])
          else none, 3⟩ : Heap)
      (2 : Nat) = [(["a"], [⟨["a"], 1, 0⟩])] :=
  ⟨rfl, rfl⟩

/-- C9 (amended): `steps` and `tags` return value copies — the
returned object is a fresh address whose contents equal the internal
list, mutating it leaves the engine's internal list untouched, and a
subsequent engine insertion does not change the returned object — but
`tag_index` returns the live internal dict: its address is the
engine's own, and mutating the returned object rewrites the engine's
index. -/
theorem index_accessor_copy_semantics (e : EngineH) (h : Heap) (hwf : EngineWF e h) :
    ((stepsProp e h).2 ≠ e.stepsAddr ∧
     readNatList (stepsProp e h).1 (stepsProp e h).2 = readNatList h e.stepsAddr ∧
     (∀ f, readNatList (mutateNatList (stepsProp e h).1 (stepsProp e h).2 f)
        e.stepsAddr = readNatList h e.stepsAddr) ∧
     (∀ p, readNatList (addEntryH e (stepsProp e h).1 p) (stepsProp e h).2 =
        readNatList h e.stepsAddr)) ∧
    ((tagsProp e h).2 ≠ e.tagsAddr ∧
     readTagList (tagsProp e h).1 (tagsProp e h).2 = readTagList h e.tagsAddr ∧
     (∀ f, readTagList (mutateTagList (tagsProp e h).1 (tagsProp e h).2 f)
        e.tagsAddr = readTagList h e.tagsAddr) ∧
     (∀ p, readTagList (addEntryH e (tagsProp e h).1 p) (tagsProp e h).2 =
        readTagList h e.tagsAddr)) ∧
    ((tagIndexProp e h).2 = e.tagIndexAddr ∧
     (∀ f, readTagDict (mutateTagDict (tagIndexProp e h).1 (tagIndexProp e h).2 f)
        e.tagIndexAddr = f (readTagDict h e.tagIndexAddr))) := by
  obtain ⟨hs_lt, ht_lt, hi_lt, hne_st, hne_si, hne_ti, ⟨ls, hls⟩, ⟨lt, hlt⟩, ⟨dt, hdt⟩⟩ := hwf
  have hfresh_s : (stepsProp e h).2 = h.next := rfl
  have hfresh_t : (tagsProp e h).2 = h.next := rfl
  refine ⟨⟨?_, ?_, ?_, ?_⟩, ⟨?_, ?_, ?_, ?_⟩, rfl, ?_⟩
  · rw [hfresh_s]
    omega
  · unfold stepsProp
    rw [show readNatList (Heap.alloc h (.natList (readNatList h e.stepsAddr))).1
        (Heap.alloc h (.natList (readNatList h e.stepsAddr))).2 =
        match (Heap.alloc h (.natList (readNatList h e.stepsAddr))).1.mem
          (Heap.alloc h (.natList (readNatList h e.stepsAddr))).2 with
        | some (.natList l) => l
        | _ => [] from rfl]
    rw [alloc_mem_new]
  · intro f
    unfold readNatList
    rw [show (mutateNatList (stepsProp e h).1 (stepsProp e h).2 f).mem e.stepsAddr =
      (stepsProp e h).1.mem e.stepsAddr from
      mutateObj_mem_ne _ _ _ _ (by rw [hfresh_s]; omega)]
    rw [show (stepsProp e h).1.mem e.stepsAddr = h.mem e.stepsAddr from
      alloc_mem_old h _ _ hs_lt]
  · intro p
    unfold readNatList
    rw [addEntryH_mem_other e _ p _ (by rw [hfresh_s]; omega) (by rw [hfresh_s]; omega)
      (by rw [hfresh_s]; omega)]
    rw [show (stepsProp e h).1.mem (stepsProp e h).2 =
      some (.natList (readNatList h e.stepsAddr)) from alloc_mem_new h _]
    rfl
  · rw [hfresh_t]
    omega
  · unfold tagsProp
    rw [show readTagList (Heap.alloc h (.tagList (readTagList h e.tagsAddr))).1
        (Heap.alloc h (.tagList (readTagList h e.tagsAddr))).2 =
        match (Heap.alloc h (.tagList (readTagList h e.tagsAddr))).1.mem
          (Heap.alloc h (.tagList (readTagList h e.tagsAddr))).2 with
        | some (.tagList l) => l
        | _ => [] from rfl]
    rw [alloc_mem_new]
  · intro f
    unfold readTagList
    rw [show (mutateTagList (tagsProp e h).1 (tagsProp e h).2 f).mem e.tagsAddr =
      (tagsProp e h).1.mem e.tagsAddr from
      mutateObj_mem_ne _ _ _ _ (by rw [hfresh_t]; omega)]
    rw [show (tagsProp e h).1.mem e.tagsAddr = h.mem e.tagsAddr from
      alloc_mem_old h _ _ ht_lt]
  · intro p
    unfold readTagList
    rw [addEntryH_mem_other e _ p _ (by rw [hfresh_t]; omega) (by rw [hfresh_t]; omega)
      (by rw [hfresh_t]; omega)]
    rw [show (tagsProp e h).1.mem (tagsProp e h).2 =
      some (.tagList (readTagList h e.tagsAddr)) from alloc_mem_new h _]
    rfl
  · intro f
    unfold tagIndexProp mutateTagDict readTagDict
    unfold mutateObj
    rw [hdt]
    simp

/-- C9 amended witness: on a concrete engine, `steps` hands out a
fresh address while `tag_index` hands out the engine's own. -/
theorem index_accessor_copy_semantics_witness :
    (stepsProp ⟨0, 1, 2⟩
      (⟨fun a => if a = 0 then some (.natList [1])
          else if a = 1 then some (.tagList [["a"]])
          else if a = 2 then some (.tagDict [(["a"], [⟨["a"], 1, 0⟩])])
          else none, 3⟩ : Heap)).2 ≠ (0 : Nat) ∧
    (tagIndexProp ⟨0, 1, 2⟩
      (⟨fun a => if a = 0 then some (.natList [1])
          else if a = 1 then some (.tagList [["a"]])
          else if a = 2 then some (.tagDict [(["a"], [⟨["a"], 1, 0⟩])])
          else none, 3⟩ : Heap)).2 = (2 : Nat) := by
  have h := index_accessor_copy_semantics ⟨0, 1, 2⟩
    (⟨fun a => if a = 0 then some (.natList [1])
        else if a = 1 then some (.tagList [["a"]])
        else if a = 2 then some (.tagDict [(["a"], [⟨["a"], 1, 0⟩])])
        else none, 3⟩ : Heap)
    ⟨by decide, by decide, by decide, by decide, by decide, by decide,
      ⟨[1], rfl⟩, ⟨[["a"]], rfl⟩, ⟨[(["a"], [⟨["a"], 1, 0⟩])], rfl⟩⟩
  exact ⟨h.1.1, h.2.2.1⟩

/-! ## Mask entries (tfrecords_loader.py lines 102–123 and 210–218)

`TFRecordEntryMask.read_num_masks` derives the channel count of a
packed mask blob; `TFRecordLoader._load_tfrecord` then emits one mask
entry per channel.  A record (`Example`) is modelled by the fields the
mask path reads: the declared height/width, the raw mask blob (as its
byte list), and the compressed mask blob (as the pixel height of the
image it decodes to). -/

structure TFExample where
  height : Option Nat                -- `features.feature['height']`
  width : Option Nat                 -- `features.feature['width']`
  mask_raw : Option (List Nat)       -- `features.feature['mask_raw']` bytes
  mask_compressed : Option Nat       -- decoded `Image.open(...)`'s height
  deriving Repr, DecidableEq

/-- `TFRecordEntryMask.read_num_masks(example)`. -/
def read_num_masks (ex : TFExample) : Nat :=
  match ex.height, ex.width with
  | some h, some w =>
    match ex.mask_raw with
    | some blob => blob.length / (w * h)
    | none =>
      match ex.mask_compressed with
      | some imgHeight => imgHeight / h
      | none => 0
  | _, _ => 0

/-- A mask `Entry` as constructed by `_load_tfrecord`: its tag is
`("mask", mask_idx)` and `mask_idx` selects the channel sliced out of
the blob in `read_image_data`. -/
structure MaskEntry where
  offset : Nat
  step : Nat
  mask_idx : Nat
  deriving Repr, DecidableEq

/-- The mask branch of `TFRecordLoader._load_tfrecord` (lines
214–218): `for i in range(num_masks): target.add_entry(
TFRecordEntryMask(self._file, offset, self._iteration, self._id, 0,
name, ...))` — note the source passes the literal `0` as `mask_idx`
and never uses the loop variable `i`. -/
def load_tfrecord_masks (ex : TFExample) (offset step : Nat) : List MaskEntry :=
  match ex.height, ex.width with
  | some _, some _ =>
    if ex.mask_raw.isSome ∨ ex.mask_compressed.isSome then
      (List.range (read_num_masks ex)).map
        (fun _ => { offset := offset, step := step, mask_idx := 0 })
    else []
  | _, _ => []

/-- C8: evaluation at the failing input.  A record with height 2,
width 2 and an 8-byte raw mask blob has 2 channels — and the
compressed variant with decoded image height 6 and declared height 2
has 3 — so the channel-count half of the claim holds; but the loader
emits every entry with channel index 0 (`mask_idx` is the literal `0`,
the loop variable is unused), so the emitted entries do not cover the
distinct channel indices the claim requires. -/
theorem tfrecord_mask_entries_all_channel_zero :
    read_num_masks ⟨some 2, some 2, some (List.replicate 8 0), none⟩ = 2 ∧
    (load_tfrecord_masks ⟨some 2, some 2, some (List.replicate 8 0), none⟩ 0 5).map
      (fun m => m.mask_idx) = [0, 0] ∧
    read_num_masks ⟨some 2, some 2, none, some 6⟩ = 3 ∧
    (load_tfrecord_masks ⟨some 2, some 2, none, some 6⟩ 0 5).map
      (fun m => m.mask_idx) = [0, 0, 0] := by
  refine ⟨rfl, ?_, rfl, ?_⟩ <;> rfl

end TFView
